import Mathlib

/-!
Verification development for the LaunchBox-to-Playnite exporter
(`src/launchbox2playnite/main.py`).

The Python source is shallowly embedded: pure string functions are
translated to Lean functions on `String`/`List Char`; filesystem
enumeration is abstracted to explicit lists of entries supplied as
parameters; `uuid4()` values are threaded as explicit parameters; the
iteration order of a Python `set` (which is hash-table order, not
insertion order) is modelled by an explicit oracle `iter` that may
return any permutation of the stored elements.

Python string details used by the embedding:
`str.strip()` removes leading/trailing whitespace, modelled with
`Char.isWhitespace`; `str.replace(c, r)` for a one-character needle is
modelled by `replaceCharStr`; truthiness of a string is `s ≠ ""`.
-/

namespace LB2P

/-- Python `s.strip()` on the character list: drop whitespace from both ends. -/
def stripChars (l : List Char) : List Char :=
  ((l.dropWhile Char.isWhitespace).reverse.dropWhile Char.isWhitespace).reverse

/-- Python `s.strip()` for `String`. -/
def pyStrip (s : String) : String :=
  ⟨stripChars s.data⟩

/-- Python `s.replace(ch, r)` where the needle is the single character `ch`. -/
def replaceCharStr (s : String) (ch : Char) (r : String) : String :=
  ⟨s.data.flatMap (fun c => if c = ch then r.data else [c])⟩

/-- Python `opt or default` for an optional string (`None` and `""` are falsy). -/
def pyOr (o : Option String) (d : String) : String :=
  match o with
  | some s => if s = "" then d else s
  | none => d

/-- Source `norm_key`: lowercase and keep only alphanumeric characters. -/
def norm_key (s : String) : String :=
  ⟨(s.data.map Char.toLower).filter Char.isAlphanum⟩

/-- Source `normalize_title`: remove every `:` and `?`, then strip. -/
def normalize_title (title : String) : String :=
  pyStrip ⟨(title.data.filter (fun c => c ≠ ':')).filter (fun c => c ≠ '?')⟩

/-- Source `normalized_media_key`: `_`/`-` to space, right single quote to
apostrophe, then `normalize_title` and lowercase. -/
def normalized_media_key (value : String) : String :=
  let cleaned := replaceCharStr (replaceCharStr value '_' " ") '-' " "
  let cleaned := replaceCharStr cleaned '’' "\'"
  ⟨(normalize_title cleaned).data.map Char.toLower⟩

/-!
## Bounded Damerau-Levenshtein distance (claim C1)

The source function `damerau_levenshtein(a, b, max_distance)` fills a
DP matrix `d` row by row.  We embed the matrix as `dTab a b i j`
(= the source's `d[i][j]`, `i`,`j` being the usual 1-based DP indices),
built row by row exactly as the source does: each row is a function of
the two previous rows (`rowNext`), and `dpRows` returns the pair
(row `i`, row `i-1`).  The cell recurrence in `rowNext` is the source's
loop body verbatim, including the source's transposition branch which
adds `cost` (the substitution cost) rather than 1.
-/
/-- One DP row of the source's matrix: row `i` (`i ≥ 1`) as a function of
column `j`, given row `i-2` (`pp`) and row `i-1` (`p`).  The cell formula is
the loop body of `damerau_levenshtein`. -/
def rowNext (a b : List Char) (i : Nat) (pp p : Nat → Nat) : Nat → Nat
  | 0 => i
  | j + 1 =>
    let cost := if a.get? (i - 1) = b.get? j then 0 else 1
    let v := min (p (j + 1) + 1) (min (rowNext a b i pp p j + 1) (p j + cost))
    if 2 ≤ i ∧ 1 ≤ j ∧ a.get? (i - 1) = b.get? (j - 1) ∧ a.get? (i - 2) = b.get? j
    then min v (pp (j - 1) + cost)
    else v

/-- The pair (row `i`, row `i-1`) of the source's DP matrix. -/
def dpRows (a b : List Char) : Nat → ((Nat → Nat) × (Nat → Nat))
  | 0 => (fun j => j, fun j => j)
  | i + 1 =>
    let pr := dpRows a b i
    (rowNext a b (i + 1) pr.2 pr.1, pr.1)

/-- Cell `d[i][j]` of the source's DP matrix. -/
def dTab (a b : List Char) (i j : Nat) : Nat :=
  (dpRows a b i).1 j

/-!
The reference distance for claim C1.  Modelled from the spec: the
standard restricted Damerau-Levenshtein ("optimal string alignment")
recurrence, in which an adjacent transposition costs exactly 1.  It is
identical to the source's table except that the transposition branch
adds 1 instead of the substitution cost (`dTab_eq_osaTab` below shows
the two tables agree everywhere).
-/
/-- Row `i` of the textbook restricted Damerau-Levenshtein matrix. -/
def osaRowNext (a b : List Char) (i : Nat) (pp p : Nat → Nat) : Nat → Nat
  | 0 => i
  | j + 1 =>
    let cost := if a.get? (i - 1) = b.get? j then 0 else 1
    let v := min (p (j + 1) + 1) (min (osaRowNext a b i pp p j + 1) (p j + cost))
    if 2 ≤ i ∧ 1 ≤ j ∧ a.get? (i - 1) = b.get? (j - 1) ∧ a.get? (i - 2) = b.get? j
    then min v (pp (j - 1) + 1)
    else v

/-- The pair (row `i`, row `i-1`) of the textbook matrix. -/
def osaRows (a b : List Char) : Nat → ((Nat → Nat) × (Nat → Nat))
  | 0 => (fun j => j, fun j => j)
  | i + 1 =>
    let pr := osaRows a b i
    (osaRowNext a b (i + 1) pr.2 pr.1, pr.1)

/-- Cell `(i, j)` of the textbook restricted Damerau-Levenshtein matrix. -/
def osaTab (a b : List Char) (i j : Nat) : Nat :=
  (osaRows a b i).1 j

/-- The restricted (adjacent-transposition) Damerau-Levenshtein distance. -/
def osa (a b : List Char) : Nat :=
  osaTab a b a.length b.length

/-- The source's per-row minimum `best_in_row`: initialized to
`max_distance + 1` and folded over the interior cells of row `i`. -/
def bestInRow (a b : List Char) (k i : Nat) : Nat :=
  (List.range b.length).foldl (fun acc j => min acc (dTab a b i (j + 1))) (k + 1)

/-- The row loop of `damerau_levenshtein`: starting at row `i` with `fuel`
rows left, return `max_distance + 1` as soon as a row's best value exceeds
the bound, else fall through to the final cell. -/
def dlRowsAux (a b : List Char) (k : Nat) : Nat → Nat → Nat
  | 0, _ => dTab a b a.length b.length
  | fuel + 1, i =>
    if k < bestInRow a b k i then k + 1
    else dlRowsAux a b k fuel (i + 1)

/-- Source `damerau_levenshtein`: cheap length rejection, empty-string
shortcuts, then the row loop over rows `1..len(a)`. -/
def damerau_levenshtein (a b : List Char) (max_distance : Nat) : Nat :=
  if max_distance < Nat.dist a.length b.length then max_distance + 1
  else if a.length = 0 then b.length
  else if b.length = 0 then a.length
  else dlRowsAux a b max_distance a.length 1

/-!
## Fuzzy media search (claim C2)

`find_fuzzy_image(folder, title, extensions, max_distance)` recursively
enumerates `folder.glob(f"**/*.{ext}")` for each extension in order; the
filesystem is abstracted by a `MediaFolder`: an existence flag plus, for
each extension, the list of files produced by the glob in enumeration
order.  The two nested source loops over one uniform body are flattened
into a single loop over `extensions.flatMap folder.glob`.  The Python
parameter default is `max_distance = 2`.
-/
structure MediaFile where
  stem : String
  path : String

structure MediaFolder where
  present : Bool
  glob : String → List MediaFile

/-- Distance used by `find_fuzzy_image` for one candidate file, the target
key being already normalized. -/
def fuzzyDist (target : String) (k : Nat) (f : MediaFile) : Nat :=
  damerau_levenshtein target.data (normalized_media_key f.stem).data k

/-- The enumeration loop of `find_fuzzy_image`, carrying the source's
`best_path`/`best_distance` state, skipping files at distance at least the
current best, and returning immediately on a distance-0 hit. -/
def fuzzyLoop (target : String) (k : Nat) :
    List MediaFile → Option String → Nat → Option String × Nat
  | [], bp, bd => (bp, bd)
  | f :: rest, bp, bd =>
    let distance := fuzzyDist target k f
    if bd ≤ distance then fuzzyLoop target k rest bp bd
    else if distance = 0 then (some f.path, distance)
    else fuzzyLoop target k rest (some f.path) distance

/-- Source `find_fuzzy_image`. -/
def find_fuzzy_image (folder : MediaFolder) (title : String)
    (extensions : List String) (max_distance : Nat) : Option String :=
  if folder.present = false then none
  else
    let target := normalized_media_key title
    let res := fuzzyLoop target max_distance (extensions.flatMap folder.glob)
      none (max_distance + 1)
    if res.2 ≤ max_distance then res.1 else none

/-- Modelled from the spec: compute the distance of every enumerated file,
keep the minimum, let ties keep the first file in enumeration order, and
return none when the best distance exceeds the bound. -/
def bestMatchSpec (folder : MediaFolder) (title : String)
    (extensions : List String) (k : Nat) : Option String :=
  if folder.present = false then none
  else
    let target := normalized_media_key title
    let files := extensions.flatMap folder.glob
    let dmin := files.foldl (fun acc f => min acc (fuzzyDist target k f)) (k + 1)
    if dmin ≤ k then (files.find? (fun f => fuzzyDist target k f == dmin)).map MediaFile.path
    else none

def witnessFolderC2 : MediaFolder :=
  ⟨true, fun e => if e = "png" then [⟨"abd", "q1"⟩, ⟨"abc", "q2"⟩] else []⟩

/-!
## Name candidate generation (claims C3)

`media_name_candidates` iterates Python sets; a set is modelled as a
deduplicated list in insertion order (`listAdd` is `set.add`).  The
candidate list produced by the source depends on the sets' hash-table
iteration order, but the properties settled here (cardinality and the
singleton case) are order-independent.
-/
/-- Python `set.add` on the insertion-ordered list model of a set. -/
def listAdd (l : List String) (v : String) : List String :=
  if v ∈ l then l else l ++ [v]

/-- The fixed punctuation set of `_raw_title_variants`. -/
def replacementChars : List Char := [':', '!', '?', '*', '"', '<', '>', '|']

/-- Source `_raw_title_variants`: for each punctuation character present,
add the variants obtained by replacing it with `_`, a space, or nothing. -/
def raw_title_variants (title : String) : List String :=
  replacementChars.foldl
    (fun variants ch =>
      let updates := variants.flatMap (fun v =>
        if ch ∈ v.data then
          [replaceCharStr v ch "_", replaceCharStr v ch " ", replaceCharStr v ch ""]
        else [])
      updates.foldl listAdd variants)
    [title]

/-- Source `_base_variants`: apostrophe variants (both ASCII and the right
single quote, replaced by `_`, nothing, or a space), plus space-collapsed
variants, all nonempty. -/
def base_variants (base : String) : List String :=
  if base = "" then []
  else
    let v1 := listAdd [base] (replaceCharStr (replaceCharStr base '\'' "_") '’' "_")
    let v2 := listAdd v1 (replaceCharStr (replaceCharStr base '\'' "") '’' "")
    let v3 := listAdd v2 (replaceCharStr (replaceCharStr base '\'' " ") '’' " ")
    let v4 := listAdd v3 (replaceCharStr base ' ' "_")
    let v5 := listAdd v4 (replaceCharStr base ' ' "")
    v5.filter (fun v => v ≠ "")

/-- Source `_add_candidate`: skip empty values, strip, deduplicate. -/
def add_candidate (cands : List String) (v : String) : List String :=
  if v = "" then cands
  else
    let cleaned := pyStrip v
    if cleaned ≠ "" ∧ cleaned ∉ cands then cands ++ [cleaned] else cands

/-- Source `media_name_candidates`. -/
def media_name_candidates (title : String) : List String :=
  (raw_title_variants title).foldl
    (fun cands raw => (base_variants (normalize_title raw)).foldl add_candidate cands)
    []

/-!
## Game record parsing (claim C5)

`parse_launchbox_game` builds an insertion-ordered dict of heterogeneous
values and finally filters out values equal to `""`, `None`, `[]` or `{}`.
The dict is modelled as `List (String × PValue)`.  The XML element is
modelled by a lookup `String → Option (Option String)` (element present?,
its text), matching the inner `get` helper; `collect_images`,
`collect_videos` and `collect_manual` perform filesystem I/O, so their
results are parameters, as is the generated `uuid4()` string.
-/
inductive PValue where
  | str (s : String)
  | vnone
  | list (l : List PValue)
  | dict (l : List (String × PValue))

/-- Python `v in ("", None, [], {})`, the emptiness test of the final
filter in `parse_launchbox_game`. -/
def isEmptyVal : PValue → Bool
  | .str s => s = ""
  | .vnone => true
  | .list l => l.isEmpty
  | .dict l => l.isEmpty

/-- The inner `get(tag)` helper of `parse_launchbox_game`: the stripped
element text when the element exists and has truthy text. -/
def xmlGet (elem : String → Option (Option String)) (tag : String) : Option String :=
  match elem tag with
  | some (some t) => if t = "" then none else some (pyStrip t)
  | some none => none
  | none => none

/-- Models `str(Path(p).parent)`; its exact value is irrelevant to the
claims (it only ever sits inside the nonempty `PlayAction` dict). -/
def parentDir (p : String) : String :=
  let parts := p.splitOn "/"
  if parts.length ≤ 1 then "." else String.intercalate "/" parts.dropLast

/-- Source `parse_launchbox_game`. -/
def parse_launchbox_game (elem : String → Option (Option String))
    (platform_name uuid : String) (cover background icon : Option String)
    (screenshots videos : List String) (manual : Option String) :
    List (String × PValue) :=
  let get := xmlGet elem
  let title := pyOr (get "Title") "Unknown Game"
  let sort_title := pyOr (get "SortTitle") title
  let base : List (String × PValue) := [
    ("Id", PValue.str uuid),
    ("Name", PValue.str title),
    ("SortingName", PValue.str sort_title),
    ("Platform", PValue.str platform_name),
    ("ReleaseYear", match get "ReleaseDate" with
      | some d => if d = "" then PValue.vnone else PValue.str (d.take 4)
      | none => PValue.vnone),
    ("Developers", match get "Developer" with
      | some d => if d = "" then PValue.list [] else PValue.list [PValue.str d]
      | none => PValue.list []),
    ("Publishers", match get "Publisher" with
      | some d => if d = "" then PValue.list [] else PValue.list [PValue.str d]
      | none => PValue.list []),
    ("Genres", match get "Genre" with
      | some g => if g = "" then PValue.list []
          else PValue.list ((((g.splitOn ";").map pyStrip).filter (fun x => x ≠ "")).map PValue.str)
      | none => PValue.list []),
    ("Description", match get "Notes" with
      | some d => PValue.str d
      | none => PValue.vnone)]
  let withRoms := match get "RomPath" with
    | some r => if r = "" then base
        else base ++ [("Roms", PValue.list [PValue.dict [("Path", PValue.str r)]])]
    | none => base
  let withPlay := match get "ApplicationPath" with
    | some e => if e = "" then withRoms
        else withRoms ++ [("PlayAction", .dict [
          ("Path", PValue.str e),
          ("Arguments", PValue.str (pyOr (get "CommandLine") "")),
          ("WorkingDir", PValue.str (parentDir e))])]
    | none => withRoms
  let g1 := match cover with
    | some c => if c = "" then withPlay else withPlay ++ [("Image", PValue.str c)]
    | none => withPlay
  let g2 := match background with
    | some c => if c = "" then g1 else g1 ++ [("BackgroundImage", PValue.str c)]
    | none => g1
  let g3 := match icon with
    | some c => if c = "" then g2 else g2 ++ [("Icon", PValue.str c)]
    | none => g2
  let g4 := if screenshots.isEmpty then g3
    else g3 ++ [("Screenshots", PValue.list (screenshots.map PValue.str))]
  let g5 := if videos.isEmpty then g4
    else g4 ++ [("Videos", PValue.list (videos.map PValue.str))]
  let g6 := match manual with
    | some m => if m = "" then g5 else g5 ++ [("Manual", PValue.str m)]
    | none => g5
  g6.filter (fun kv => !(isEmptyVal kv.2))

/-!
## Playlist parsing (claim C6)

`parse_playlists` globs playlist XML files; each file is modelled as an
already-parsed `PlaylistFile` (the glob order is the list order).  An XML
element is an `XNode` (text plus child count): the source line
`root.find("Id") or root.find("ID")` relies on Python Element truthiness,
which is `len(element) != 0` (pre-3.14 ElementTree semantics), modelled by
`elemOr`.  `games_by_lb_id` is modelled as a lookup from a LaunchBox game
id to the game's Playnite `Id` (a parsed game dict is never falsy since it
always carries its nonempty `Id`).  `uuid4()` values come from `uuids`,
indexed by the number of playlists already emitted.
-/
structure XNode where
  text : Option String
  childCount : Nat

/-- Python `A or B` on optional XML elements. -/
def elemOr (x y : Option XNode) : Option XNode :=
  match x with
  | some e => if e.childCount ≠ 0 then some e else y
  | none => y

structure PlaylistFile where
  stem : String
  hasRoot : Bool
  nameElem : Option XNode
  idElem : Option XNode
  idElem2 : Option XNode
  members : List (Option String)

structure PlaylistOut where
  id : String
  name : String
  description : Option String
  gameIds : List String
  lbId : String

/-- The playlist display name: stripped `Name` text, else the file stem. -/
def playlistName (f : PlaylistFile) : String :=
  match f.nameElem with
  | some e =>
    match e.text with
    | some t => if t = "" then f.stem else pyStrip t
    | none => f.stem
  | none => f.stem

/-- The LaunchBox playlist GUID, when present with truthy text. -/
def playlistLbId (f : PlaylistFile) : Option String :=
  match elemOr f.idElem f.idElem2 with
  | some e =>
    match e.text with
    | some t => if t = "" then none else some (pyStrip t)
    | none => none
  | none => none

/-- One `PlaylistGame` member: skip on missing element or falsy text, then
look the stripped LaunchBox game id up and keep the game's Playnite id. -/
def resolveMember (games : String → Option String) (m : Option String) :
    Option String :=
  match m with
  | some t => if t = "" then none else games (pyStrip t)
  | none => none

/-- The per-file body of the `parse_playlists` loop. -/
def processPlaylistFile (games : String → Option String) (uuid : String)
    (f : PlaylistFile) : Option PlaylistOut :=
  if f.hasRoot = false then none
  else
    match playlistLbId f with
    | none => none
    | some lbId =>
      some { id := uuid, name := playlistName f, description := none,
             gameIds := f.members.filterMap (resolveMember games), lbId := lbId }

def parse_playlistsAux (games : String → Option String) (uuids : Nat → String) :
    List PlaylistFile → Nat → List PlaylistOut × List (String × PlaylistOut)
  | [], _ => ([], [])
  | f :: rest, n =>
    match processPlaylistFile games (uuids n) f with
    | none => parse_playlistsAux games uuids rest n
    | some p =>
      let r := parse_playlistsAux games uuids rest (n + 1)
      (p :: r.1, (p.lbId, p) :: r.2)

/-- Source `parse_playlists`: the flat playlist list and the
LaunchBox-id lookup map (modelled as the list of inserted pairs). -/
def parse_playlists (files : List PlaylistFile) (games : String → Option String)
    (uuids : Nat → String) : List PlaylistOut × List (String × PlaylistOut) :=
  parse_playlistsAux games uuids files 0

def witnessPlaylistFileC6 : PlaylistFile :=
  ⟨"pl", true, none, none, some ⟨some "LB1", 0⟩, [some "g9"]⟩

/-!
## Parallel parsing aggregation (claim C4)

In `import_launchbox_exo`, workers parse the sorted platform files and
`pool.imap_unordered` yields `(path, name, games, lb_map)` tuples in
completion order; each tuple is stored in the `platform_results` dict
keyed by path, and the final merge iterates `platform_files` (the
original sorted list).  Worker isolation means each file's parse result
is a function of the file alone, modelled by `r : String → ParseRes`;
a completion order is any permutation of the file list (worker count
only influences which permutation occurs).
-/
abbrev GameRec := List (String × PValue)

structure ParseRes where
  platformName : String
  games : List GameRec
  lbMap : List (String × GameRec)

/-- The `platform_results` dict after the `imap_unordered` loop: one
`(path, result)` entry per yielded tuple, in completion order. -/
def collectResults (order : List String) (r : String → ParseRes) :
    List (String × ParseRes) :=
  order.map (fun f => (f, r f))

/-- Dict lookup `platform_results[path]`. -/
def lookupRes (d : List (String × ParseRes)) (f : String) : Option ParseRes :=
  (d.find? (fun kv => kv.1 == f)).map (fun kv => kv.2)

/-- The final merge loop: `for platform_file in platform_files:
playnite_games.extend(games)` in the original sorted file order.  (On the
source's inputs every lookup succeeds; the `none` default is dead.) -/
def mergeGames (files : List String) (d : List (String × ParseRes)) :
    List GameRec :=
  files.flatMap (fun f =>
    match lookupRes d f with
    | some res => res.games
    | none => [])

def witnessParseResC4 : String → ParseRes :=
  fun f => ⟨f, [[("Name", PValue.str f)]], []⟩

/-!
## Parents.xml relationships and the folder tree (claims C7, C8, C9, C10)

`parse_parents` builds `defaultdict(set)` edge tables.  A Python set is
modelled as its insertion-ordered, deduplicated element list (`edgeAdd`);
iterating a set (hash order, not insertion order) is modelled by an
explicit oracle `iter : List String → List String` that the theorems
constrain to return a permutation.  `sorted(s)` is
`List.insertionSort pyStrLe (iter s)` (`pyStrLe` is code-point
lexicographic order, which is how Python compares strings).
`processRow` performs the source's six independent per-row updates (each
guard reads only the row and writes a distinct table, so the sequential
updates are recorded field-wise).  The recursive folder builders receive
explicit fuel; `none` models non-termination of the source's unbounded
recursion.  `uuid4()` is replaced by one fixed fresh-id parameter, whose
value none of the claims depend on.
-/
/-- Code-point lexicographic comparison of character lists. -/
def charListLe : List Char → List Char → Bool
  | [], _ => true
  | _ :: _, [] => false
  | c :: cs, d :: ds => if c < d then true else if d < c then false else charListLe cs ds

/-- Python string comparison: code-point lexicographic order. -/
def pyStrLe (a b : String) : Prop := charListLe a.data b.data = true

instance : DecidableRel pyStrLe := fun a b =>
  inferInstanceAs (Decidable (charListLe a.data b.data = true))

instance : IsTotal String pyStrLe := by
  constructor
  intro a b
  show charListLe a.data b.data = true ∨ charListLe b.data a.data = true
  generalize a.data = x
  generalize b.data = y
  induction x generalizing y with
  | nil => exact Or.inl rfl
  | cons c cs ih =>
      cases y with
      | nil => exact Or.inr rfl
      | cons d ds =>
          rcases lt_trichotomy c d with h | h | h
          · left
            simp [charListLe, h]
          · subst h
            rcases ih ds with h2 | h2
            · left
              simp [charListLe, lt_irrefl, h2]
            · right
              simp [charListLe, lt_irrefl, h2]
          · right
            simp [charListLe, h]

instance : IsTrans String pyStrLe := by
  constructor
  intro a b c h1 h2
  show charListLe a.data c.data = true
  have key : ∀ x y z : List Char,
      charListLe x y = true → charListLe y z = true → charListLe x z = true := by
    intro x
    induction x with
    | nil => intro y z _ _; rfl
    | cons cx cs ih =>
        intro y z hx hy
        cases y with
        | nil => simp [charListLe] at hx
        | cons d ds =>
            cases z with
            | nil => simp [charListLe] at hy
            | cons e es =>
                simp only [charListLe] at hx hy ⊢
                by_cases hcd : cx < d
                · have hde : d < e ∨ (¬ d < e ∧ ¬ e < d) := by
                    by_cases hde : d < e
                    · exact Or.inl hde
                    · refine Or.inr ⟨hde, fun hed => ?_⟩
                      simp [if_neg hde, if_pos hed] at hy
                  rcases hde with hde | ⟨hde, hed⟩
                  · simp [if_pos (lt_trans hcd hde)]
                  · have heq : d = e := le_antisymm (not_lt.mp hed) (not_lt.mp hde)
                    subst heq
                    simp [if_pos hcd]
                · by_cases hdc : d < cx
                  · simp [if_neg hcd, if_pos hdc] at hx
                  · have hcdeq : cx = d := le_antisymm (not_lt.mp hdc) (not_lt.mp hcd)
                    subst hcdeq
                    simp only [if_neg hcd, if_neg hdc] at hx ⊢
                    by_cases hce : cx < e
                    · simp [if_pos hce]
                    · by_cases hec : e < cx
                      · simp [if_neg hce, if_pos hec] at hy
                      · simp only [if_neg hce, if_neg hec] at hy ⊢
                        exact ih ds es hx hy
  exact key a.data b.data c.data h1 h2

/-- Python `sorted(s)` on strings. -/
def pySorted (s : List String) : List String := List.insertionSort pyStrLe s

abbrev EdgeMap := List (String × List String)

/-- `m[k]` for the defaultdict-of-sets model (`[]` when absent). -/
def edgeGet (m : EdgeMap) (k : String) : List String :=
  match m.find? (fun kv => kv.1 == k) with
  | some kv => kv.2
  | none => []

/-- `m[k].add v` for the defaultdict-of-sets model. -/
def edgeAdd (m : EdgeMap) (k v : String) : EdgeMap :=
  match m.find? (fun kv => kv.1 == k) with
  | some _ => m.map (fun kv =>
      if kv.1 == k then (kv.1, if v ∈ kv.2 then kv.2 else kv.2 ++ [v]) else kv)
  | none => m ++ [(k, [v])]

/-- One `Parent` row, as the five `findtext` results. -/
structure Row where
  platformName : Option String
  playlistId : Option String
  platformCategoryName : Option String
  parentPlatformName : Option String
  parentPlatformCategoryName : Option String

/-- `(parent.findtext(tag) or "").strip()`. -/
def rowField (o : Option String) : String := pyStrip (o.getD "")

structure ParentMaps where
  ccc : EdgeMap
  ccp : EdgeMap
  ccpl : EdgeMap
  pcp : EdgeMap
  pcpl : EdgeMap
  roots : List String

def emptyParentMaps : ParentMaps := ⟨[], [], [], [], [], []⟩

/-- The body of the `parse_parents` row loop.  Each of the source's six
sequential guarded updates reads only the row fields and writes its own
table, so they are recorded field-wise. -/
def processRow (plMap : String → Option PlaylistOut) (M : ParentMaps)
    (row : Row) : ParentMaps :=
  let platform_name := rowField row.platformName
  let playlist_id := rowField row.playlistId
  let cat_name := rowField row.platformCategoryName
  let parent_platform := rowField row.parentPlatformName
  let parent_cat := rowField row.parentPlatformCategoryName
  { roots := if cat_name ≠ "" ∧ parent_cat = "" ∧ platform_name = "" ∧ playlist_id = ""
      then listAdd M.roots cat_name else M.roots,
    ccc := if cat_name ≠ "" ∧ parent_cat ≠ ""
      then edgeAdd M.ccc parent_cat cat_name else M.ccc,
    ccp := if platform_name ≠ "" ∧ parent_cat ≠ ""
      then edgeAdd M.ccp parent_cat platform_name else M.ccp,
    ccpl := if playlist_id ≠ "" ∧ parent_cat ≠ "" ∧ (plMap playlist_id).isSome
      then edgeAdd M.ccpl parent_cat playlist_id else M.ccpl,
    pcpl := if playlist_id ≠ "" ∧ parent_platform ≠ "" ∧ (plMap playlist_id).isSome
      then edgeAdd M.pcpl parent_platform playlist_id else M.pcpl,
    pcp := if platform_name ≠ "" ∧ parent_platform ≠ ""
      then edgeAdd M.pcp parent_platform platform_name else M.pcp }

/-- Source `parse_parents` over the rows of `Parents.xml` (a missing or
rootless file contributes no rows). -/
def parse_parents (rows : List Row) (plMap : String → Option PlaylistOut) :
    ParentMaps :=
  rows.foldl (processRow plMap) emptyParentMaps

/-- A Playnite folder dict: `Id`, `Name`, optional `GameIds`, optional
`Children`. -/
inductive Folder where
  | mk (id name : String) (gameIds : Option (List String))
      (children : Option (List Folder))

def Folder.id : Folder → String
  | .mk i _ _ _ => i

def Folder.name : Folder → String
  | .mk _ n _ _ => n

def Folder.gameIds : Folder → Option (List String)
  | .mk _ _ g _ => g

def Folder.children : Folder → Option (List Folder)
  | .mk _ _ _ c => c

def Folder.childrenL (f : Folder) : List Folder := f.children.getD []

/-- `Option`-propagating map, evaluating left to right. -/
def mapOpt {α β : Type} (f : α → Option β) : List α → Option (List β)
  | [] => some []
  | a :: t =>
    match f a, mapOpt f t with
    | some b, some bs => some (b :: bs)
    | _, _ => none

/-- Everything the tree builders close over. -/
structure BuildCtx where
  maps : ParentMaps
  plMap : String → Option PlaylistOut
  gbp : String → Option (List String)
  iter : List String → List String
  uuid : String

/-- Source `make_playlist_folder`: nothing for an unknown id, else the
playlist's Playnite id and name with its member ids sorted. -/
def make_playlist_folder (plMap : String → Option PlaylistOut)
    (lb_playlist_id : String) : Option Folder :=
  match plMap lb_playlist_id with
  | none => none
  | some pl => some (.mk pl.id pl.name (some (pySorted pl.gameIds)) none)

/-- Source `make_platform_folder` with explicit fuel: sorted owned game ids
when the normalized platform name is a key of `games_by_platform_norm`,
then the attached playlist folders, then the sub-platform folders. -/
def make_platform_folder (C : BuildCtx) : Nat → String → Option Folder
  | 0, _ => none
  | fuel + 1, pname =>
    let gameIds := match C.gbp (norm_key pname) with
      | some ids => some (pySorted ids)
      | none => none
    let plFolders := (C.iter (edgeGet C.maps.pcpl pname)).filterMap
      (make_playlist_folder C.plMap)
    match mapOpt (fun p => make_platform_folder C fuel p)
        (C.iter (edgeGet C.maps.pcp pname)) with
    | none => none
    | some subs =>
      let children := plFolders ++ subs
      some (.mk C.uuid pname gameIds
        (if children.isEmpty then none else some children))

/-- Source `make_category_folder` with explicit fuel: name-sorted
subcategories, then name-sorted platforms, then attached playlists. -/
def make_category_folder (C : BuildCtx) : Nat → String → Option Folder
  | 0, _ => none
  | fuel + 1, cname =>
    match mapOpt (fun c => make_category_folder C fuel c)
        (pySorted (C.iter (edgeGet C.maps.ccc cname))),
      mapOpt (fun p => make_platform_folder C fuel p)
        (pySorted (C.iter (edgeGet C.maps.ccp cname))) with
    | some sc, some pf =>
      let pls := (C.iter (edgeGet C.maps.ccpl cname)).filterMap
        (make_playlist_folder C.plMap)
      let children := sc ++ pf ++ pls
      some (.mk C.uuid cname none
        (if children.isEmpty then none else some children))
    | _, _ => none

/-- Source `build_folder_tree_from_parents`: a one-element list holding the
expanded root category. -/
def build_folder_tree_from_parents (C : BuildCtx) (root_category_name : String)
    (fuel : Nat) : Option (List Folder) :=
  (make_category_folder C fuel root_category_name).map (fun f => [f])

def ctxC7 : BuildCtx :=
  { maps := { ccc := [], ccp := [], ccpl := [("Root", ["p1", "p2"])],
              pcp := [], pcpl := [], roots := [] },
    plMap := fun i =>
      if i = "p1" then some ⟨"i1", "P1", none, [], "p1"⟩
      else if i = "p2" then some ⟨"i2", "P2", none, [], "p2"⟩
      else none,
    gbp := fun _ => none,
    iter := List.reverse,
    uuid := "u" }

/-- Categories reachable from the root along subcategory edges. -/
inductive ReachC (C : BuildCtx) (root : String) : String → Prop where
  | base : ReachC C root root
  | child {c c' : String} : ReachC C root c → c' ∈ edgeGet C.maps.ccc c →
      ReachC C root c'

/-- Platforms reachable from the root: attached to a reachable category,
or a sub-platform of a reachable platform. -/
inductive ReachP (C : BuildCtx) (root : String) : String → Prop where
  | fromCat {c p : String} : ReachC C root c → p ∈ edgeGet C.maps.ccp c →
      ReachP C root p
  | sub {p p' : String} : ReachP C root p → p' ∈ edgeGet C.maps.pcp p →
      ReachP C root p'

def ctxC8 : BuildCtx :=
  { maps := { ccc := [("Computers", ["Retro"])], ccp := [], ccpl := [],
              pcp := [], pcpl := [], roots := [] },
    plMap := fun _ => none,
    gbp := fun _ => none,
    iter := fun l => l,
    uuid := "u" }

/-- Every `GameIds` list in the folder and below it is sorted (code-point
lexicographic, the order Python's `sorted` uses on strings). -/
def Folder.gidsSorted (f : Folder) : Prop :=
  (∀ l, f.gameIds = some l → List.Pairwise pyStrLe l) ∧
  (∀ g ∈ f.childrenL, g.gidsSorted)
termination_by sizeOf f
decreasing_by
  rename_i hmem
  rcases f with ⟨i, n, gi, ch⟩
  cases ch with
  | none => exact absurd hmem (by simp [Folder.childrenL, Folder.children])
  | some cs =>
      have h1 : g ∈ cs := hmem
      have h2 := List.sizeOf_lt_of_mem h1
      simp only [Folder.mk.sizeOf_spec, Option.some.sizeOf_spec]
      omega

def plMapC10 : String → Option PlaylistOut :=
  fun i => if i = "p" then some ⟨"i", "P", none, ["b", "a"], "p"⟩ else none

theorem dTab_zero (a b : List Char) (j : Nat) : dTab a b 0 j = j := rfl

theorem dTab_succ_zero (a b : List Char) (i : Nat) : dTab a b (i + 1) 0 = i + 1 := rfl

/-- The source's cell recurrence, now expressed on `dTab` itself. -/
theorem dTab_succ_succ (a b : List Char) (i j : Nat) :
    dTab a b (i + 1) (j + 1) =
      (if 1 ≤ i ∧ 1 ≤ j ∧ a.get? i = b.get? (j - 1) ∧ a.get? (i - 1) = b.get? j
       then min (min (dTab a b i (j + 1) + 1)
                  (min (dTab a b (i + 1) j + 1)
                    (dTab a b i j + (if a.get? i = b.get? j then 0 else 1))))
              (dTab a b (i - 1) (j - 1) + (if a.get? i = b.get? j then 0 else 1))
       else min (dTab a b i (j + 1) + 1)
              (min (dTab a b (i + 1) j + 1)
                (dTab a b i j + (if a.get? i = b.get? j then 0 else 1)))) := by
  cases i with
  | zero =>
      simp only [dTab, dpRows, rowNext]
      have h2 : ¬ (2 ≤ 0 + 1) := by omega
      have h1 : ¬ (1 ≤ 0) := by omega
      simp [h2, h1]
  | succ i' =>
      simp only [dTab, dpRows, rowNext]
      have h2 : (2 ≤ i' + 1 + 1) = True := eq_true (by omega)
      have h1 : (1 ≤ i' + 1) = True := eq_true (by omega)
      simp only [h2, h1, true_and]
      rfl

theorem dTab_zero_col (a b : List Char) (i : Nat) : dTab a b i 0 = i := by
  cases i <;> rfl

theorem osaTab_zero (a b : List Char) (j : Nat) : osaTab a b 0 j = j := rfl

theorem osaTab_succ_zero (a b : List Char) (i : Nat) : osaTab a b (i + 1) 0 = i + 1 := rfl

theorem osaTab_zero_col (a b : List Char) (i : Nat) : osaTab a b i 0 = i := by
  cases i <;> rfl

theorem osaTab_succ_succ (a b : List Char) (i j : Nat) :
    osaTab a b (i + 1) (j + 1) =
      (if 1 ≤ i ∧ 1 ≤ j ∧ a.get? i = b.get? (j - 1) ∧ a.get? (i - 1) = b.get? j
       then min (min (osaTab a b i (j + 1) + 1)
                  (min (osaTab a b (i + 1) j + 1)
                    (osaTab a b i j + (if a.get? i = b.get? j then 0 else 1))))
              (osaTab a b (i - 1) (j - 1) + 1)
       else min (osaTab a b i (j + 1) + 1)
              (min (osaTab a b (i + 1) j + 1)
                (osaTab a b i j + (if a.get? i = b.get? j then 0 else 1)))) := by
  cases i with
  | zero =>
      simp only [osaTab, osaRows, osaRowNext]
      have h2 : ¬ (2 ≤ 0 + 1) := by omega
      have h1 : ¬ (1 ≤ 0) := by omega
      simp [h2, h1]
  | succ i' =>
      simp only [osaTab, osaRows, osaRowNext]
      have h2 : (2 ≤ i' + 1 + 1) = True := eq_true (by omega)
      have h1 : (1 ≤ i' + 1) = True := eq_true (by omega)
      simp only [h2, h1, true_and]
      rfl

/-- Substitution step for the source table. -/
theorem dTab_le_sub (a b : List Char) (i j : Nat) :
    dTab a b (i + 1) (j + 1) ≤
      dTab a b i j + (if a.get? i = b.get? j then 0 else 1) := by
  rw [dTab_succ_succ]
  split
  · exact le_trans (min_le_left _ _)
      (le_trans (min_le_right _ _) (min_le_right _ _))
  · exact le_trans (min_le_right _ _) (min_le_right _ _)

/-- Substitution step for the textbook table. -/
theorem osaTab_le_sub (a b : List Char) (i j : Nat) :
    osaTab a b (i + 1) (j + 1) ≤
      osaTab a b i j + (if a.get? i = b.get? j then 0 else 1) := by
  rw [osaTab_succ_succ]
  split
  · exact le_trans (min_le_left _ _)
      (le_trans (min_le_right _ _) (min_le_right _ _))
  · exact le_trans (min_le_right _ _) (min_le_right _ _)

/-- The source table and the textbook table coincide: the source's
transposition branch adds the substitution cost instead of 1, but in the
only case where that differs (cost 0, all four compared characters
equal) the substitution path already yields a value at least as small. -/
theorem dTab_eq_osaTab (a b : List Char) (i j : Nat) :
    dTab a b i j = osaTab a b i j := by
  have key : ∀ s i j, i + j ≤ s → dTab a b i j = osaTab a b i j := by
    intro s
    induction s with
    | zero =>
        intro i j h
        obtain ⟨rfl, rfl⟩ : i = 0 ∧ j = 0 := by omega
        rfl
    | succ s ih =>
        intro i j h
        match i, j with
        | 0, j => rw [dTab_zero, osaTab_zero]
        | i + 1, 0 => rw [dTab_succ_zero, osaTab_succ_zero]
        | i + 1, j + 1 =>
        rw [dTab_succ_succ, osaTab_succ_succ]
        have e1 : dTab a b i (j + 1) = osaTab a b i (j + 1) := ih _ _ (by omega)
        have e2 : dTab a b (i + 1) j = osaTab a b (i + 1) j := ih _ _ (by omega)
        have e3 : dTab a b i j = osaTab a b i j := ih _ _ (by omega)
        have e4 : dTab a b (i - 1) (j - 1) = osaTab a b (i - 1) (j - 1) := ih _ _ (by omega)
        rw [e1, e2, e3, e4]
        by_cases hc : 1 ≤ i ∧ 1 ≤ j ∧ a.get? i = b.get? (j - 1) ∧ a.get? (i - 1) = b.get? j
        · simp only [if_pos hc]
          obtain ⟨hi, hj, hab, hba⟩ := hc
          by_cases hcost : a.get? i = b.get? j
          · -- cost 0: the transposition value cannot beat the substitution path
            simp only [if_pos hcost, Nat.add_zero]
            have hchars : a.get? (i - 1) = b.get? (j - 1) := by
              rw [hba, ← hcost, hab]
            have hsub : osaTab a b i j ≤ osaTab a b (i - 1) (j - 1) := by
              obtain ⟨i2, rfl⟩ : ∃ i2, i = i2 + 1 := ⟨i - 1, by omega⟩
              obtain ⟨j2, rfl⟩ : ∃ j2, j = j2 + 1 := ⟨j - 1, by omega⟩
              have hstep := osaTab_le_sub a b i2 j2
              simp only [Nat.add_sub_cancel] at hchars ⊢
              rw [if_pos hchars, Nat.add_zero] at hstep
              exact hstep
            have hvX : min (osaTab a b i (j + 1) + 1)
                (min (osaTab a b (i + 1) j + 1) (osaTab a b i j)) ≤
                osaTab a b (i - 1) (j - 1) :=
              le_trans (le_trans (min_le_right _ _) (min_le_right _ _)) hsub
            rw [min_eq_left hvX, min_eq_left (le_trans hvX (Nat.le_succ _))]
          · simp only [if_neg hcost]
        · simp only [if_neg hc]
  exact key (i + j) i j le_rfl

/-- Every DP cell dominates the difference of its indices. -/
theorem dist_le_dTab (a b : List Char) (i j : Nat) :
    Nat.dist i j ≤ dTab a b i j := by
  have key : ∀ s i j, i + j ≤ s → Nat.dist i j ≤ dTab a b i j := by
    intro s
    induction s with
    | zero =>
        intro i j h
        obtain ⟨rfl, rfl⟩ : i = 0 ∧ j = 0 := by omega
        simp [dTab_zero]
    | succ s ih =>
        intro i j h
        match i, j with
        | 0, j => simp [dTab_zero, Nat.dist_zero_left]
        | i + 1, 0 => simp [dTab_succ_zero, Nat.dist_zero_right]
        | i + 1, j + 1 =>
        rw [dTab_succ_succ]
        have hd : Nat.dist (i + 1) (j + 1) = Nat.dist i j := Nat.dist_succ_succ
        have h1 : Nat.dist i j ≤ dTab a b i (j + 1) + 1 := by
          have htri : Nat.dist i j ≤ Nat.dist i (j + 1) + Nat.dist (j + 1) j :=
            Nat.dist.triangle_inequality _ _ _
          have : Nat.dist (j + 1) j = 1 := by
            rw [Nat.dist_eq_sub_of_le_right (Nat.le_succ j)]
            omega
          have hih := ih i (j + 1) (by omega)
          omega
        have h2 : Nat.dist i j ≤ dTab a b (i + 1) j + 1 := by
          have htri : Nat.dist (i + 1) (j + 1) ≤
              Nat.dist (i + 1) j + Nat.dist j (j + 1) :=
            Nat.dist.triangle_inequality _ _ _
          have : Nat.dist j (j + 1) = 1 := by
            rw [Nat.dist_eq_sub_of_le (Nat.le_succ j)]
            omega
          have hih := ih (i + 1) j (by omega)
          omega
        have h3 : Nat.dist i j ≤ dTab a b i j + (if a.get? i = b.get? j then 0 else 1) := by
          have hih := ih i j (by omega)
          split <;> omega
        by_cases hc : 1 ≤ i ∧ 1 ≤ j ∧ a.get? i = b.get? (j - 1) ∧ a.get? (i - 1) = b.get? j
        · rw [if_pos hc]
          have h4 : Nat.dist i j ≤ dTab a b (i - 1) (j - 1) +
              (if a.get? i = b.get? j then 0 else 1) := by
            have hih := ih (i - 1) (j - 1) (by omega)
            have heq : Nat.dist (i - 1) (j - 1) = Nat.dist i j := by
              obtain ⟨i2, rfl⟩ : ∃ i2, i = i2 + 1 := ⟨i - 1, by omega⟩
              obtain ⟨j2, rfl⟩ : ∃ j2, j = j2 + 1 := ⟨j - 1, by omega⟩
              simp only [Nat.add_sub_cancel]
              exact Nat.dist_succ_succ.symm
            rw [heq] at hih
            split <;> omega
          rw [hd]
          exact le_min (le_min h1 (le_min h2 h3)) h4
        · rw [if_neg hc, hd]
          exact le_min h1 (le_min h2 h3)
  exact key (i + j) i j le_rfl

/-- Column-1 cells grow at most linearly: `d[i+1][1] ≤ i + 1`. -/
theorem dTab_col_one_le (a b : List Char) (i : Nat) :
    dTab a b (i + 1) 1 ≤ i + 1 := by
  have h := dTab_le_sub a b i 0
  rw [dTab_zero_col] at h
  refine le_trans h ?_
  split <;> omega

/-- If every interior cell of row `i` exceeds `k`, the same holds in row `i+1`.
This is the soundness of the source's per-row early exit: the transposition
branch can reach back two rows, but its value is always at least the
substitution-path value from the row in between. -/
theorem row_exceed_step (a b : List Char) (k i : Nat) (hi : 1 ≤ i)
    (hm : 1 ≤ b.length)
    (H : ∀ j, 1 ≤ j → j ≤ b.length → k < dTab a b i j) :
    ∀ j, 1 ≤ j → j ≤ b.length → k < dTab a b (i + 1) j := by
  have hik : k < i := by
    have h1 := H 1 le_rfl hm
    obtain ⟨i2, rfl⟩ : ∃ i2, i = i2 + 1 := ⟨i - 1, by omega⟩
    have h2 := dTab_col_one_le a b i2
    omega
  intro j
  induction j using Nat.strong_induction_on with
  | _ j ihj =>
  intro hj hjm
  obtain ⟨j2, rfl⟩ : ∃ j2, j = j2 + 1 := ⟨j - 1, by omega⟩
  rw [dTab_succ_succ]
  have hA : k < dTab a b i (j2 + 1) + 1 := by
    have := H (j2 + 1) (by omega) hjm
    omega
  have hB : k < dTab a b (i + 1) j2 + 1 := by
    rcases Nat.eq_zero_or_pos j2 with hz | hpos
    · subst hz
      rw [dTab_zero_col]
      omega
    · have := ihj j2 (by omega) hpos (by omega)
      omega
  have hC : k < dTab a b i j2 + (if a.get? i = b.get? j2 then 0 else 1) := by
    rcases Nat.eq_zero_or_pos j2 with hz | hpos
    · subst hz
      rw [dTab_zero_col]
      split <;> omega
    · have := H j2 hpos (by omega)
      split <;> omega
  by_cases hc : 1 ≤ i ∧ 1 ≤ j2 ∧ a.get? i = b.get? (j2 - 1) ∧ a.get? (i - 1) = b.get? j2
  · rw [if_pos hc]
    obtain ⟨-, hj2, hab, hba⟩ : 1 ≤ i ∧ 1 ≤ j2 ∧ a.get? i = b.get? (j2 - 1) ∧
        a.get? (i - 1) = b.get? j2 := hc
    have hrow : k < dTab a b i j2 := H j2 hj2 (by omega)
    have hT : k < dTab a b (i - 1) (j2 - 1) + (if a.get? i = b.get? j2 then 0 else 1) := by
      obtain ⟨i2, rfl⟩ : ∃ i2, i = i2 + 1 := ⟨i - 1, by omega⟩
      obtain ⟨j3, rfl⟩ : ∃ j3, j2 = j3 + 1 := ⟨j2 - 1, by omega⟩
      simp only [Nat.add_sub_cancel] at hab hba ⊢
      have hstep := dTab_le_sub a b i2 j3
      by_cases hcost : a.get? (i2 + 1) = b.get? (j3 + 1)
      · have hchars : a.get? i2 = b.get? j3 := by
          rw [hba, ← hcost, hab]
        rw [if_pos hchars, Nat.add_zero] at hstep
        rw [if_pos hcost, Nat.add_zero]
        omega
      · rw [if_neg hcost]
        split at hstep <;> omega
    have hlt : k < min (min (dTab a b i (j2 + 1) + 1)
        (min (dTab a b (i + 1) j2 + 1)
          (dTab a b i j2 + (if a.get? i = b.get? j2 then 0 else 1))))
        (dTab a b (i - 1) (j2 - 1) + (if a.get? i = b.get? j2 then 0 else 1)) := by
      simp only [lt_min_iff]
      exact ⟨⟨hA, hB, hC⟩, hT⟩
    exact hlt
  · rw [if_neg hc]
    simp only [lt_min_iff]
    exact ⟨hA, hB, hC⟩

/-- Once a row's interior cells all exceed `k`, every later row's do too. -/
theorem row_exceed_ge (a b : List Char) (k i : Nat) (hi : 1 ≤ i)
    (hm : 1 ≤ b.length)
    (H : ∀ j, 1 ≤ j → j ≤ b.length → k < dTab a b i j) :
    ∀ d j, 1 ≤ j → j ≤ b.length → k < dTab a b (i + d) j := by
  intro d
  induction d with
  | zero => exact H
  | succ d ihd => exact row_exceed_step a b k (i + d) (by omega) hm ihd

theorem lt_foldl_min {k : Nat} (f : Nat → Nat) :
    ∀ (l : List Nat) (init : Nat),
      (k < l.foldl (fun acc x => min acc (f x)) init ↔ k < init ∧ ∀ x ∈ l, k < f x) := by
  intro l
  induction l with
  | nil => simp
  | cons x t ih =>
      intro init
      simp only [List.foldl_cons, ih, lt_min_iff, List.mem_cons]
      constructor
      · rintro ⟨⟨h1, h2⟩, h3⟩
        exact ⟨h1, fun y hy => by rcases hy with rfl | hy; exact h2; exact h3 y hy⟩
      · rintro ⟨h1, h2⟩
        exact ⟨⟨h1, h2 x (Or.inl rfl)⟩, fun y hy => h2 y (Or.inr hy)⟩

theorem lt_bestInRow_iff (a b : List Char) (k i : Nat) :
    k < bestInRow a b k i ↔ ∀ j, 1 ≤ j → j ≤ b.length → k < dTab a b i j := by
  rw [bestInRow, lt_foldl_min]
  constructor
  · rintro ⟨-, h⟩ j hj hjm
    obtain ⟨x, rfl⟩ : ∃ x, j = x + 1 := ⟨j - 1, by omega⟩
    exact h x (List.mem_range.mpr (by omega))
  · intro h
    refine ⟨Nat.lt_succ_self k, fun x hx => ?_⟩
    exact h (x + 1) (by omega) (by have := List.mem_range.mp hx; omega)

theorem dlRowsAux_no_exit (a b : List Char) (k : Nat) :
    ∀ fuel s, (∀ i, s ≤ i → i < s + fuel → ¬ k < bestInRow a b k i) →
      dlRowsAux a b k fuel s = dTab a b a.length b.length := by
  intro fuel
  induction fuel with
  | zero => intro s h; rfl
  | succ fuel ih =>
      intro s h
      rw [dlRowsAux, if_neg (h s le_rfl (by omega))]
      exact ih (s + 1) (fun i h1 h2 => h i (by omega) (by omega))

theorem dlRowsAux_exit (a b : List Char) (k : Nat) :
    ∀ fuel s, (∃ i, s ≤ i ∧ i < s + fuel ∧ k < bestInRow a b k i) →
      dlRowsAux a b k fuel s = k + 1 := by
  intro fuel
  induction fuel with
  | zero => rintro s ⟨i, h1, h2, -⟩; omega
  | succ fuel ih =>
      rintro s ⟨i, h1, h2, h3⟩
      rw [dlRowsAux]
      by_cases hs : k < bestInRow a b k s
      · rw [if_pos hs]
      · rw [if_neg hs]
        refine ih (s + 1) ⟨i, ?_, by omega, h3⟩
        rcases Nat.eq_or_lt_of_le h1 with rfl | h
        · exact absurd h3 hs
        · omega

/-- Distances at most the bound are reported exactly. -/
theorem damerau_levenshtein_eq_osa (a b : List Char) (k : Nat)
    (h : osa a b ≤ k) : damerau_levenshtein a b k = osa a b := by
  have hosa : dTab a b a.length b.length = osa a b := dTab_eq_osaTab a b _ _
  have hdd : Nat.dist a.length b.length ≤ k := by
    have h1 := dist_le_dTab a b a.length b.length
    omega
  simp only [damerau_levenshtein, if_neg (not_lt.mpr hdd)]
  by_cases hn : a.length = 0
  · rw [if_pos hn]
    show b.length = osa a b
    rw [show osa a b = osaTab a b a.length b.length from rfl, hn, osaTab_zero]
  · rw [if_neg hn]
    by_cases hm : b.length = 0
    · rw [if_pos hm]
      show a.length = osa a b
      rw [show osa a b = osaTab a b a.length b.length from rfl, hm, osaTab_zero_col]
    · rw [if_neg hm]
      rw [dlRowsAux_no_exit a b k a.length 1 ?_, hosa]
      intro i h1 h2 hbest
      have hall := (lt_bestInRow_iff a b k i).mp hbest
      have hfin := row_exceed_ge a b k i h1 (by omega) hall (a.length - i)
        b.length (by omega) le_rfl
      rw [show i + (a.length - i) = a.length by omega, hosa] at hfin
      omega

/-- Distances above the bound are reported above the bound. -/
theorem lt_damerau_levenshtein (a b : List Char) (k : Nat)
    (h : k < osa a b) : k < damerau_levenshtein a b k := by
  have hosa : dTab a b a.length b.length = osa a b := dTab_eq_osaTab a b _ _
  by_cases hdd : k < Nat.dist a.length b.length
  · simp only [damerau_levenshtein, if_pos hdd]
    omega
  · simp only [damerau_levenshtein, if_neg hdd]
    by_cases hn : a.length = 0
    · rw [if_pos hn]
      have : osa a b = b.length := by
        rw [show osa a b = osaTab a b a.length b.length from rfl, hn, osaTab_zero]
      omega
    · rw [if_neg hn]
      by_cases hm : b.length = 0
      · rw [if_pos hm]
        have : osa a b = a.length := by
          rw [show osa a b = osaTab a b a.length b.length from rfl, hm,
            osaTab_zero_col]
        omega
      · rw [if_neg hm]
        by_cases hex : ∃ i, 1 ≤ i ∧ i < 1 + a.length ∧ k < bestInRow a b k i
        · rw [dlRowsAux_exit a b k a.length 1 hex]
          omega
        · push_neg at hex
          rw [dlRowsAux_no_exit a b k a.length 1
            (fun i h1 h2 => not_lt.mpr (hex i h1 h2)), hosa]
          exact h

/-- Claim C1: `damerau_levenshtein(a, b, k)` reports the restricted
(adjacent-transposition) Damerau-Levenshtein distance exactly whenever that
distance is at most `k` (a distance of exactly `k` included), reports a value
strictly greater than `k` whenever the true distance exceeds `k`, and both
the cheap length rejection and the per-row early exit return `k + 1`. -/
theorem damerau_levenshtein_exact (a b : List Char) (k : Nat) :
    (osa a b ≤ k → damerau_levenshtein a b k = osa a b) ∧
    (k < osa a b → k < damerau_levenshtein a b k) ∧
    (k < Nat.dist a.length b.length → damerau_levenshtein a b k = k + 1) ∧
    ((∃ i, 1 ≤ i ∧ i ≤ a.length ∧ ∀ j, 1 ≤ j → j ≤ b.length → k < dTab a b i j) →
      Nat.dist a.length b.length ≤ k → a.length ≠ 0 → b.length ≠ 0 →
      damerau_levenshtein a b k = k + 1) := by
  refine ⟨damerau_levenshtein_eq_osa a b k, lt_damerau_levenshtein a b k, ?_, ?_⟩
  · intro h
    simp only [damerau_levenshtein, if_pos h]
  · rintro ⟨i, h1, h2, hall⟩ hdd hn hm
    simp only [damerau_levenshtein, if_neg (not_lt.mpr hdd), if_neg hn, if_neg hm]
    exact dlRowsAux_exit a b k a.length 1
      ⟨i, h1, by omega, (lt_bestInRow_iff a b k i).mpr hall⟩

theorem damerau_levenshtein_exact_witness :
    osa ['t', 'e', 'h'] ['t', 'h', 'e'] ≤ 2 ∧
      damerau_levenshtein ['t', 'e', 'h'] ['t', 'h', 'e'] 2 =
        osa ['t', 'e', 'h'] ['t', 'h', 'e'] :=
  ⟨by decide, (damerau_levenshtein_exact ['t', 'e', 'h'] ['t', 'h', 'e'] 2).1 (by decide)⟩

theorem foldl_min_le_init {α : Type} (g : α → Nat) :
    ∀ (l : List α) (init : Nat), l.foldl (fun acc x => min acc (g x)) init ≤ init := by
  intro l
  induction l with
  | nil => intro init; exact le_rfl
  | cons x t ih =>
      intro init
      exact le_trans (ih (min init (g x))) (min_le_left _ _)

theorem foldl_min_le_mem {α : Type} (g : α → Nat) :
    ∀ (l : List α) (init : Nat) (x : α), x ∈ l →
      l.foldl (fun acc y => min acc (g y)) init ≤ g x := by
  intro l
  induction l with
  | nil => intro init x hx; cases hx
  | cons y t ih =>
      intro init x hx
      rcases List.mem_cons.mp hx with rfl | hx
      · exact le_trans (foldl_min_le_init g t _) (min_le_right _ _)
      · exact ih _ x hx

theorem foldl_min_eq_init_or_mem {α : Type} (g : α → Nat) :
    ∀ (l : List α) (init : Nat),
      l.foldl (fun acc y => min acc (g y)) init = init ∨
        ∃ x ∈ l, l.foldl (fun acc y => min acc (g y)) init = g x := by
  intro l
  induction l with
  | nil => intro init; exact Or.inl rfl
  | cons y t ih =>
      intro init
      rcases ih (min init (g y)) with h | ⟨x, hx, h⟩
      · rcases le_total init (g y) with hle | hle
        · rw [List.foldl_cons, h, min_eq_left hle]
          exact Or.inl rfl
        · rw [List.foldl_cons, h, min_eq_right hle]
          exact Or.inr ⟨y, List.mem_cons_self y t, rfl⟩
      · exact Or.inr ⟨x, List.mem_cons_of_mem y hx, by rw [List.foldl_cons, h]⟩

theorem fuzzyLoop_snd (target : String) (k : Nat) :
    ∀ (files : List MediaFile) (bp : Option String) (bd : Nat),
      (fuzzyLoop target k files bp bd).2 =
        files.foldl (fun acc f => min acc (fuzzyDist target k f)) bd := by
  intro files
  induction files with
  | nil => intro bp bd; rfl
  | cons f rest ih =>
      intro bp bd
      rw [fuzzyLoop, List.foldl_cons]
      by_cases h1 : bd ≤ fuzzyDist target k f
      · simp only [if_pos h1, ih, min_eq_left h1]
      · rw [if_neg h1]
        by_cases h2 : fuzzyDist target k f = 0
        · rw [if_pos h2]
          have hz : min bd (fuzzyDist target k f) = 0 := by omega
          rw [hz]
          show fuzzyDist target k f = _
          rw [h2]
          exact (Nat.le_zero.mp (foldl_min_le_init _ rest 0)).symm
        · rw [if_neg h2, ih, min_eq_right (by omega)]

theorem fuzzyLoop_fst (target : String) (k : Nat) :
    ∀ (files : List MediaFile) (bp : Option String) (bd : Nat),
      (fuzzyLoop target k files bp bd).1 =
        (if files.foldl (fun acc f => min acc (fuzzyDist target k f)) bd < bd
         then (files.find? (fun f => fuzzyDist target k f ==
                 files.foldl (fun acc g => min acc (fuzzyDist target k g)) bd)).map
               MediaFile.path
         else bp) := by
  intro files
  induction files with
  | nil =>
      intro bp bd
      rw [fuzzyLoop]
      simp
  | cons f rest ih =>
      intro bp bd
      rw [fuzzyLoop, List.foldl_cons]
      by_cases h1 : bd ≤ fuzzyDist target k f
      · rw [if_pos h1, ih, min_eq_left h1]
        by_cases h2 : rest.foldl (fun acc g => min acc (fuzzyDist target k g)) bd < bd
        · rw [if_pos h2, if_pos h2, List.find?_cons_of_neg]
          simp only [beq_iff_eq]
          omega
        · rw [if_neg h2, if_neg h2]
      · rw [if_neg h1]
        by_cases h2 : fuzzyDist target k f = 0
        · rw [if_pos h2]
          have hmin : min bd (fuzzyDist target k f) = 0 := by omega
          have hM : rest.foldl (fun acc g => min acc (fuzzyDist target k g))
              (min bd (fuzzyDist target k f)) = 0 := by
            rw [hmin]
            exact Nat.le_zero.mp (foldl_min_le_init _ rest 0)
          rw [hM, if_pos (by omega), List.find?_cons_of_pos]
          · rfl
          · simp only [beq_iff_eq]
            omega
        · rw [if_neg h2, ih, min_eq_right (by omega)]
          have hle : rest.foldl (fun acc g => min acc (fuzzyDist target k g))
              (fuzzyDist target k f) ≤ fuzzyDist target k f :=
            foldl_min_le_init _ rest _
          by_cases h3 : rest.foldl (fun acc g => min acc (fuzzyDist target k g))
              (fuzzyDist target k f) < fuzzyDist target k f
          · rw [if_pos h3, if_pos (by omega), List.find?_cons_of_neg]
            simp only [beq_iff_eq]
            omega
          · have heq : rest.foldl (fun acc g => min acc (fuzzyDist target k g))
                (fuzzyDist target k f) = fuzzyDist target k f := by omega
            rw [if_neg h3, if_pos (by omega), List.find?_cons_of_pos]
            · rfl
            · simp only [beq_iff_eq]
              omega

/-- Claim C2: `find_fuzzy_image` returns exactly the spec-side best match
(minimum distance, ties to the first file in enumeration order, short
circuit on an exact match being observationally irrelevant), and on an
existing directory it returns none exactly when no enumerated file's
normalized stem key is within `max_distance` of the normalized target. -/
theorem find_fuzzy_image_spec (folder : MediaFolder) (title : String)
    (extensions : List String) (k : Nat) :
    find_fuzzy_image folder title extensions k = bestMatchSpec folder title extensions k ∧
    (folder.present = true →
      (find_fuzzy_image folder title extensions k = none ↔
        ∀ f ∈ extensions.flatMap folder.glob,
          k < fuzzyDist (normalized_media_key title) k f)) ∧
    (folder.present = true →
      (find_fuzzy_image folder title extensions k = none ↔
        ∀ f ∈ extensions.flatMap folder.glob,
          k < osa (normalized_media_key title).data
            (normalized_media_key f.stem).data)) := by
  have hmain : find_fuzzy_image folder title extensions k =
      bestMatchSpec folder title extensions k := by
    simp only [find_fuzzy_image, bestMatchSpec]
    by_cases hp : folder.present = false
    · rw [if_pos hp, if_pos hp]
    · rw [if_neg hp, if_neg hp]
      rw [fuzzyLoop_snd, fuzzyLoop_fst]
      by_cases hd : (extensions.flatMap folder.glob).foldl
          (fun acc f => min acc (fuzzyDist (normalized_media_key title) k f)) (k + 1) ≤ k
      · rw [if_pos hd, if_pos (Nat.lt_succ_of_le hd), if_pos hd]
      · rw [if_neg hd, if_neg hd]
  have hbridge : ∀ f : MediaFile,
      k < fuzzyDist (normalized_media_key title) k f ↔
        k < osa (normalized_media_key title).data
          (normalized_media_key f.stem).data := by
    intro f
    constructor
    · intro h
      by_contra hc
      push_neg at hc
      rw [fuzzyDist, damerau_levenshtein_eq_osa _ _ _ hc] at h
      omega
    · intro h
      exact lt_damerau_levenshtein _ _ _ h
  have hiff : folder.present = true →
      (find_fuzzy_image folder title extensions k = none ↔
        ∀ f ∈ extensions.flatMap folder.glob,
          k < fuzzyDist (normalized_media_key title) k f) := ?_
  refine ⟨hmain, hiff, fun hp => ?_⟩
  · rw [hiff hp]
    constructor
    · intro h f hf
      exact (hbridge f).mp (h f hf)
    · intro h f hf
      exact (hbridge f).mpr (h f hf)
  intro hp
  rw [hmain]
  simp only [bestMatchSpec]
  rw [if_neg (by rw [hp]; exact fun h => nomatch h)]
  constructor
  · intro hnone f hf
    by_contra hle
    push_neg at hle
    have hmin : (extensions.flatMap folder.glob).foldl
        (fun acc g => min acc (fuzzyDist (normalized_media_key title) k g)) (k + 1) ≤ k :=
      le_trans (foldl_min_le_mem _ _ _ f hf) hle
    rw [if_pos hmin] at hnone
    rcases foldl_min_eq_init_or_mem
        (fuzzyDist (normalized_media_key title) k)
        (extensions.flatMap folder.glob) (k + 1) with h | ⟨x, hx, h⟩
    · omega
    · have : (extensions.flatMap folder.glob).find?
          (fun g => fuzzyDist (normalized_media_key title) k g ==
            (extensions.flatMap folder.glob).foldl
              (fun acc g => min acc (fuzzyDist (normalized_media_key title) k g))
              (k + 1)) |>.isSome := by
        rw [List.find?_isSome]
        exact ⟨x, hx, by simp [h]⟩
      rcases Option.isSome_iff_exists.mp this with ⟨y, hy⟩
      rw [hy] at hnone
      simp at hnone
  · intro hall
    rw [if_neg]
    intro hmin
    rcases foldl_min_eq_init_or_mem
        (fuzzyDist (normalized_media_key title) k)
        (extensions.flatMap folder.glob) (k + 1) with h | ⟨x, hx, h⟩
    · omega
    · have := hall x hx
      omega

theorem find_fuzzy_image_spec_witness :
    witnessFolderC2.present = true ∧
      (find_fuzzy_image witnessFolderC2 "abc" ["png"] 2 = none ↔
        ∀ f ∈ ["png"].flatMap witnessFolderC2.glob,
          2 < fuzzyDist (normalized_media_key "abc") 2 f) ∧
      (find_fuzzy_image witnessFolderC2 "abc" ["png"] 2 = none ↔
        ∀ f ∈ ["png"].flatMap witnessFolderC2.glob,
          2 < osa (normalized_media_key "abc").data
            (normalized_media_key f.stem).data) ∧
      find_fuzzy_image witnessFolderC2 "abc" ["png"] 2 = some "q2" :=
  ⟨rfl, (find_fuzzy_image_spec witnessFolderC2 "abc" ["png"] 2).2.1 rfl,
    (find_fuzzy_image_spec witnessFolderC2 "abc" ["png"] 2).2.2 rfl, by decide⟩

/-- Counterexample to claim C3 as stated: `"Super Mario"` contains none of
the special punctuation characters, yet `media_name_candidates` returns
three candidates (the space-collapsed variants), not one. -/
theorem media_name_candidates_not_single :
    (∀ c ∈ "Super Mario".data, c ∉ replacementChars) ∧
      (media_name_candidates "Super Mario").length = 3 ∧
      media_name_candidates "Super Mario" ≠ ["Super Mario"] := by
  refine ⟨by decide, by decide, by decide⟩

theorem replaceCharStr_of_not_mem (s : String) (ch : Char) (r : String)
    (h : ch ∉ s.data) : replaceCharStr s ch r = s := by
  have key : ∀ l : List Char, ch ∉ l →
      l.flatMap (fun c => if c = ch then r.data else [c]) = l := by
    intro l
    induction l with
    | nil => intro _; rfl
    | cons c t ih =>
        intro hmem
        rw [List.flatMap_cons,
          if_neg (fun hc => hmem (by rw [← hc]; exact List.mem_cons_self c t)),
          ih (fun hc => hmem (List.mem_cons_of_mem c hc))]
        rfl
  show String.mk _ = s
  rw [key s.data h]

theorem mem_of_mem_stripChars {c : Char} {l : List Char}
    (h : c ∈ stripChars l) : c ∈ l := by
  unfold stripChars at h
  rw [List.mem_reverse] at h
  have h1 := (List.dropWhile_sublist (l := (l.dropWhile Char.isWhitespace).reverse)
    Char.isWhitespace).mem h
  rw [List.mem_reverse] at h1
  exact (List.dropWhile_sublist Char.isWhitespace).mem h1

theorem stripChars_idem (l : List Char) :
    stripChars (stripChars l) = stripChars l := by
  have hrw : ∀ m : List Char, stripChars m =
      List.rdropWhile Char.isWhitespace (m.dropWhile Char.isWhitespace) := fun m => rfl
  rw [hrw, hrw]
  set m := l.dropWhile Char.isWhitespace with hm
  have h2 : List.dropWhile Char.isWhitespace
      (List.rdropWhile Char.isWhitespace m) = List.rdropWhile Char.isWhitespace m := by
    rw [List.dropWhile_eq_self_iff]
    intro hl hp
    have hpre := List.rdropWhile_prefix Char.isWhitespace m
    have hlen : 0 < m.length :=
      lt_of_lt_of_le hl (List.IsPrefix.length_le hpre)
    have hget : (List.rdropWhile Char.isWhitespace m).get ⟨0, hl⟩ =
        m.get ⟨0, hlen⟩ := by
      simp only [List.get_eq_getElem]
      exact List.IsPrefix.getElem hpre hl
    rw [hget] at hp
    exact List.dropWhile_get_zero_not Char.isWhitespace l hlen hp
  rw [h2]
  exact List.rdropWhile_idempotent Char.isWhitespace m

theorem pyStrip_idem (s : String) : pyStrip (pyStrip s) = pyStrip s := by
  show String.mk (stripChars (stripChars s.data)) = String.mk (stripChars s.data)
  rw [stripChars_idem]

theorem mem_of_mem_pyStrip {c : Char} {s : String}
    (h : c ∈ (pyStrip s).data) : c ∈ s.data :=
  mem_of_mem_stripChars h

theorem filter_ne_eq_self_of_not_mem (l : List Char) (ch : Char) (h : ch ∉ l) :
    l.filter (fun c => c ≠ ch) = l :=
  List.filter_eq_self.mpr (fun c hc => by
    simp only [ne_eq, decide_eq_true_eq]
    exact fun hcc => h (hcc ▸ hc))

theorem raw_title_variants_of_clean (title : String)
    (h : ∀ c ∈ title.data, c ∉ replacementChars) :
    raw_title_variants title = [title] := by
  have key : ∀ cs : List Char, (∀ ch ∈ cs, ch ∉ title.data) →
      cs.foldl
        (fun variants ch =>
          let updates := variants.flatMap (fun v =>
            if ch ∈ v.data then
              [replaceCharStr v ch "_", replaceCharStr v ch " ", replaceCharStr v ch ""]
            else [])
          updates.foldl listAdd variants)
        [title] = [title] := by
    intro cs
    induction cs with
    | nil => intro _; rfl
    | cons ch t ih =>
        intro hcs
        rw [List.foldl_cons]
        have hnot : ch ∉ title.data := hcs ch (List.mem_cons_self ch t)
        have hupd : ([title].flatMap (fun v =>
            if ch ∈ v.data then
              [replaceCharStr v ch "_", replaceCharStr v ch " ", replaceCharStr v ch ""]
            else [])) = [] := by
          simp only [List.flatMap_cons, List.flatMap_nil, List.append_nil]
          rw [if_neg hnot]
        simp only [hupd, List.foldl_nil]
        exact ih (fun c hc => hcs c (List.mem_cons_of_mem ch hc))
  exact key replacementChars (fun ch hch hmem => h ch hmem hch)

theorem base_variants_of_plain (base : String) (hne : base ≠ "")
    (h : ∀ c ∈ base.data, c ≠ '\'' ∧ c ≠ '’' ∧ c ≠ ' ') :
    base_variants base = [base] := by
  have h1 : ∀ r : String, replaceCharStr (replaceCharStr base '\'' r) '’' r = base := by
    intro r
    rw [replaceCharStr_of_not_mem base '\'' r (fun hc => ((h _ hc).1 rfl)),
      replaceCharStr_of_not_mem base '’' r (fun hc => ((h _ hc).2.1 rfl))]
  have h2 : ∀ r : String, replaceCharStr base ' ' r = base := by
    intro r
    exact replaceCharStr_of_not_mem base ' ' r (fun hc => ((h _ hc).2.2 rfl))
  have hadd : listAdd [base] base = [base] := by
    rw [listAdd, if_pos (List.mem_singleton.mpr rfl)]
  rw [base_variants, if_neg hne]
  simp only [h1, h2, hadd]
  have hb : (fun v => (v ≠ "" : Bool)) base = true := by
    simp [hne]
  rw [List.filter_cons, if_pos hb, List.filter_nil]

/-- Claim C3, amended: for a title with none of the special punctuation
characters, no apostrophe or right single quote, no space, and a nonblank
trim, `media_name_candidates` returns exactly the trimmed title.  (Titles
with a space or an apostrophe get collapsed variants, and
an all-whitespace title yields no candidate at all; see the
counterexample.) -/
theorem media_name_candidates_single (title : String)
    (hpunct : ∀ c ∈ title.data, c ∉ replacementChars)
    (hplain : ∀ c ∈ title.data, c ≠ '\'' ∧ c ≠ '’' ∧ c ≠ ' ')
    (hne : pyStrip title ≠ "") :
    media_name_candidates title = [pyStrip title] := by
  have hnt : normalize_title title = pyStrip title := by
    rw [normalize_title]
    have hq : ':' ∉ title.data := fun hc => hpunct ':' hc (by decide)
    have hq2 : '?' ∉ (title.data.filter (fun c => c ≠ ':')) := by
      intro hc
      exact hpunct '?' (List.mem_of_mem_filter hc) (by decide)
    rw [filter_ne_eq_self_of_not_mem title.data ':' hq]
    rw [filter_ne_eq_self_of_not_mem title.data '?' (fun hc => hpunct '?' hc (by decide))]
  rw [media_name_candidates, raw_title_variants_of_clean title hpunct, List.foldl_cons,
    List.foldl_nil, hnt]
  rw [base_variants_of_plain (pyStrip title) hne
    (fun c hc => hplain c (mem_of_mem_pyStrip hc))]
  rw [List.foldl_cons, List.foldl_nil, add_candidate, if_neg hne]
  simp only [pyStrip_idem, ne_eq, hne, not_false_eq_true, true_and, List.not_mem_nil,
    not_false_eq_true, if_pos]
  rfl

theorem media_name_candidates_single_witness :
    pyStrip "Tetris" ≠ "" ∧
      media_name_candidates "Tetris" = [pyStrip "Tetris"] :=
  ⟨by decide,
    media_name_candidates_single "Tetris" (by decide) (by decide) (by decide)⟩

/-- Claim C5: every key present in a parsed game record maps to a value that
is neither None nor an empty string, list or dict; and a game whose optional
fields are all empty keeps only the required fields. -/
theorem parse_launchbox_game_no_empty (elem : String → Option (Option String))
    (platform_name uuid : String) (cover background icon : Option String)
    (screenshots videos : List String) (manual : Option String) :
    (∀ kv ∈ parse_launchbox_game elem platform_name uuid cover background icon
        screenshots videos manual, isEmptyVal kv.2 = false) ∧
    ((∀ tag, elem tag = none) → cover = none → background = none → icon = none →
      screenshots = [] → videos = [] → manual = none →
      uuid ≠ "" → platform_name ≠ "" →
      parse_launchbox_game elem platform_name uuid cover background icon
          screenshots videos manual =
        [("Id", .str uuid), ("Name", .str "Unknown Game"),
         ("SortingName", .str "Unknown Game"), ("Platform", .str platform_name)]) := by
  constructor
  · intro kv hkv
    have h := (List.mem_filter.mp hkv).2
    simpa using h
  · intro helem hc hb hi hs hv hm huuid hplat
    subst hc hb hi hs hv hm
    have hget : ∀ tag, xmlGet elem tag = none := by
      intro tag
      rw [xmlGet, helem tag]
    simp only [parse_launchbox_game, hget, pyOr, List.isEmpty_nil]
    simp [isEmptyVal, huuid, hplat]

theorem parse_launchbox_game_no_empty_witness :
    "u1" ≠ "" ∧ "DOS" ≠ "" ∧
      parse_launchbox_game (fun _ => none) "DOS" "u1" none none none [] [] none =
        [("Id", .str "u1"), ("Name", .str "Unknown Game"),
         ("SortingName", .str "Unknown Game"), ("Platform", .str "DOS")] :=
  ⟨by decide, by decide,
    (parse_launchbox_game_no_empty (fun _ => none) "DOS" "u1" none none none
      [] [] none).2 (fun _ => rfl) rfl rfl rfl rfl rfl rfl (by decide) (by decide)⟩

/-- Claim C6: a playlist descriptor whose member ids all fail to resolve is
still emitted, in the flat output and in the lookup map, with an empty
`GameIds` list. -/
theorem parse_playlists_keeps_empty (files : List PlaylistFile)
    (games : String → Option String) (uuids : Nat → String)
    (f : PlaylistFile) (lbId : String)
    (hf : f ∈ files) (hroot : f.hasRoot = true)
    (hid : playlistLbId f = some lbId)
    (hnone : ∀ m ∈ f.members, resolveMember games m = none) :
    ∃ p : PlaylistOut,
      p ∈ (parse_playlists files games uuids).1 ∧
      (lbId, p) ∈ (parse_playlists files games uuids).2 ∧
      p.lbId = lbId ∧ p.gameIds = [] := by
  have hgids : f.members.filterMap (resolveMember games) = [] := by
    rw [List.filterMap_eq_nil_iff]
    exact hnone
  have key : ∀ (fs : List PlaylistFile) (n : Nat), f ∈ fs →
      ∃ p : PlaylistOut,
        p ∈ (parse_playlistsAux games uuids fs n).1 ∧
        (lbId, p) ∈ (parse_playlistsAux games uuids fs n).2 ∧
        p.lbId = lbId ∧ p.gameIds = [] := by
    intro fs
    induction fs with
    | nil => intro n h; cases h
    | cons g rest ih =>
        intro n hmem
        rcases List.mem_cons.mp hmem with rfl | hmem
        · have hproc : processPlaylistFile games (uuids n) f =
              some { id := uuids n, name := playlistName f, description := none,
                     gameIds := [], lbId := lbId } := by
            rw [processPlaylistFile, if_neg (by rw [hroot]; exact fun h => nomatch h),
              hid, hgids]
          simp only [parse_playlistsAux, hproc]
          exact ⟨_, List.mem_cons_self _ _, List.mem_cons_self _ _, rfl, rfl⟩
        · cases hg : processPlaylistFile games (uuids n) g with
          | none =>
              simp only [parse_playlistsAux, hg]
              exact ih n hmem
          | some p =>
              simp only [parse_playlistsAux, hg]
              obtain ⟨q, hq1, hq2, hq3, hq4⟩ := ih (n + 1) hmem
              exact ⟨q, List.mem_cons_of_mem _ hq1, List.mem_cons_of_mem _ hq2, hq3, hq4⟩
  exact key files 0 hf

theorem parse_playlists_keeps_empty_witness :
    witnessPlaylistFileC6.hasRoot = true ∧
      playlistLbId witnessPlaylistFileC6 = some "LB1" ∧
      ∃ p : PlaylistOut,
        p ∈ (parse_playlists [witnessPlaylistFileC6] (fun _ => none) (fun _ => "u")).1 ∧
        ("LB1", p) ∈ (parse_playlists [witnessPlaylistFileC6] (fun _ => none) (fun _ => "u")).2 ∧
        p.lbId = "LB1" ∧ p.gameIds = [] :=
  ⟨rfl, by decide,
    parse_playlists_keeps_empty [witnessPlaylistFileC6] (fun _ => none) (fun _ => "u")
      witnessPlaylistFileC6 "LB1" (List.mem_singleton.mpr rfl) rfl (by decide)
      (fun m hm => by
        rcases List.mem_singleton.mp hm with rfl
        rfl)⟩

theorem lookupRes_collect (r : String → ParseRes) :
    ∀ (o : List String) (f : String), f ∈ o →
      lookupRes (collectResults o r) f = some (r f) := by
  intro o
  induction o with
  | nil => intro f hf; cases hf
  | cons g t ih =>
      intro f hf
      by_cases hg : g = f
      · subst hg
        rw [collectResults, List.map_cons, lookupRes,
          List.find?_cons_of_pos _ (by simp)]
        rfl
      · rcases List.mem_cons.mp hf with rfl | hf
        · exact absurd rfl hg
        · rw [collectResults, List.map_cons, lookupRes,
            List.find?_cons_of_neg _ (by simp [hg])]
          exact ih f hf

theorem mergeGames_canonical (r : String → ParseRes) :
    ∀ (fs : List String) (d : List (String × ParseRes)),
      (∀ f ∈ fs, lookupRes d f = some (r f)) →
      mergeGames fs d = fs.flatMap (fun f => (r f).games) := by
  intro fs
  induction fs with
  | nil => intro d _; rfl
  | cons f t ih =>
      intro d h
      rw [mergeGames, List.flatMap_cons, h f (List.mem_cons_self f t)]
      rw [List.flatMap_cons]
      have := ih d (fun g hg => h g (List.mem_cons_of_mem f hg))
      rw [mergeGames] at this
      rw [this]

/-- Claim C4: for a fixed set of source files and per-file parse results,
the final merged Records list does not depend on the workers' completion
order (hence not on the worker count): any two completion orders yield the
same merged list, namely the in-order concatenation of each file's games. -/
theorem parallel_merge_deterministic (files o1 o2 : List String)
    (r : String → ParseRes) (h1 : o1.Perm files) (h2 : o2.Perm files) :
    mergeGames files (collectResults o1 r) =
      mergeGames files (collectResults o2 r) ∧
    mergeGames files (collectResults o1 r) =
      files.flatMap (fun f => (r f).games) := by
  have e1 : mergeGames files (collectResults o1 r) =
      files.flatMap (fun f => (r f).games) :=
    mergeGames_canonical r files _
      (fun f hf => lookupRes_collect r o1 f (h1.mem_iff.mpr hf))
  have e2 : mergeGames files (collectResults o2 r) =
      files.flatMap (fun f => (r f).games) :=
    mergeGames_canonical r files _
      (fun f hf => lookupRes_collect r o2 f (h2.mem_iff.mpr hf))
  exact ⟨e1.trans e2.symm, e1⟩

theorem parallel_merge_deterministic_witness :
    (["b.xml", "a.xml"].Perm ["a.xml", "b.xml"]) ∧
      mergeGames ["a.xml", "b.xml"]
          (collectResults ["a.xml", "b.xml"] witnessParseResC4) =
        mergeGames ["a.xml", "b.xml"]
          (collectResults ["b.xml", "a.xml"] witnessParseResC4) :=
  ⟨List.Perm.swap _ _ _, (parallel_merge_deterministic ["a.xml", "b.xml"]
    ["a.xml", "b.xml"] ["b.xml", "a.xml"] witnessParseResC4
    (List.Perm.refl _) (List.Perm.swap _ _ _)).1⟩

theorem edgeGet_map_keys (m : EdgeMap) (c : String)
    (f : String × List String → String × List String)
    (hf : ∀ kv, (f kv).1 = kv.1) :
    (m.map f).find? (fun kv => kv.1 == c) =
      (m.find? (fun kv => kv.1 == c)).map f := by
  induction m with
  | nil => rfl
  | cons kv t ih =>
      simp only [List.map_cons, List.find?_cons]
      rw [hf kv]
      cases hkv : (kv.1 == c) with
      | true => rfl
      | false => exact ih

/-- Membership after a set add: the element was already there or is the
added value. -/
theorem mem_edgeGet_edgeAdd {pid : String} (m : EdgeMap) (k v c : String)
    (h : pid ∈ edgeGet (edgeAdd m k v) c) :
    pid ∈ edgeGet m c ∨ pid = v := by
  rw [edgeAdd] at h
  cases hfind : m.find? (fun kv => kv.1 == k) with
  | none =>
      rw [hfind] at h
      rw [edgeGet, List.find?_append] at h
      cases hfc : m.find? (fun kv => kv.1 == c) with
      | some kvc =>
          rw [hfc] at h
          simp only [Option.or] at h
          rw [edgeGet, hfc]
          exact Or.inl h
      | none =>
          rw [hfc] at h
          simp only [Option.or] at h
          by_cases hk : k = c
          · subst hk
            simp only [List.find?_cons, List.find?_nil, beq_self_eq_true] at h
            rcases List.mem_singleton.mp h with rfl
            exact Or.inr rfl
          · have hne : (((k, [v]).1 == c) : Bool) = false := by
              simp [hk]
            simp only [List.find?_cons, List.find?_nil, hne] at h
            cases h
  | some kv0 =>
      rw [hfind] at h
      rw [edgeGet, edgeGet_map_keys m c _ (fun kv => by
        by_cases hkk : (kv.1 == k) <;> simp [hkk])] at h
      cases hfc : m.find? (fun kv => kv.1 == c) with
      | none =>
          rw [hfc] at h
          cases h
      | some kvc =>
          rw [hfc] at h
          simp only [Option.map] at h
          by_cases hkk : (kvc.1 == k)
          · rw [if_pos hkk] at h
            simp only at h
            by_cases hv : v ∈ kvc.2
            · rw [if_pos hv] at h
              rw [edgeGet, hfc]
              exact Or.inl h
            · rw [if_neg hv] at h
              rcases List.mem_append.mp h with h | h
              · rw [edgeGet, hfc]
                exact Or.inl h
              · exact Or.inr (List.mem_singleton.mp h)
          · rw [if_neg hkk] at h
            rw [edgeGet, hfc]
            exact Or.inl h

/-- Claim C9: a relationship row whose playlist id is unknown to the
already-resolved playlist map contributes no category-to-playlist and no
platform-to-playlist edge, and `make_playlist_folder` yields nothing for
such an id, so no folder for it can appear in the built tree. -/
theorem parse_parents_drops_unknown (rows : List Row)
    (plMap : String → Option PlaylistOut) (pid : String)
    (hp : plMap pid = none) :
    (∀ c, pid ∉ edgeGet (parse_parents rows plMap).ccpl c) ∧
    (∀ p, pid ∉ edgeGet (parse_parents rows plMap).pcpl p) ∧
    make_playlist_folder plMap pid = none := by
  have hstep : ∀ (M : ParentMaps) (row : Row),
      (∀ c, pid ∉ edgeGet M.ccpl c) → (∀ p, pid ∉ edgeGet M.pcpl p) →
      (∀ c, pid ∉ edgeGet (processRow plMap M row).ccpl c) ∧
        (∀ p, pid ∉ edgeGet (processRow plMap M row).pcpl p) := by
    intro M row h1 h2
    constructor
    · intro c hmem
      simp only [processRow] at hmem
      split at hmem
      · next hcond =>
          rcases mem_edgeGet_edgeAdd _ _ _ _ hmem with hmem | rfl
          · exact h1 c hmem
          · rw [hp] at hcond
            exact nomatch hcond.2.2
      · exact h1 c hmem
    · intro p hmem
      simp only [processRow] at hmem
      split at hmem
      · next hcond =>
          rcases mem_edgeGet_edgeAdd _ _ _ _ hmem with hmem | rfl
          · exact h2 p hmem
          · rw [hp] at hcond
            exact nomatch hcond.2.2
      · exact h2 p hmem
  have key : ∀ (rs : List Row) (M : ParentMaps),
      (∀ c, pid ∉ edgeGet M.ccpl c) → (∀ p, pid ∉ edgeGet M.pcpl p) →
      (∀ c, pid ∉ edgeGet (rs.foldl (processRow plMap) M).ccpl c) ∧
        (∀ p, pid ∉ edgeGet (rs.foldl (processRow plMap) M).pcpl p) := by
    intro rs
    induction rs with
    | nil => intro M h1 h2; exact ⟨h1, h2⟩
    | cons row t ih =>
        intro M h1 h2
        rw [List.foldl_cons]
        obtain ⟨h1n, h2n⟩ := hstep M row h1 h2
        exact ih _ h1n h2n
  obtain ⟨ha, hb⟩ := key rows emptyParentMaps
    (fun c h => nomatch h) (fun p h => nomatch h)
  refine ⟨ha, hb, ?_⟩
  rw [make_playlist_folder, hp]

theorem parse_parents_drops_unknown_witness :
    ((fun _ : String => (none : Option PlaylistOut)) "PX" = none) ∧
      (∀ c, "PX" ∉ edgeGet (parse_parents
        [⟨none, some "PX", none, none, some "Cat"⟩] (fun _ => none)).ccpl c) ∧
      make_playlist_folder (fun _ : String => none) "PX" = none := by
  refine ⟨rfl, ?_, ?_⟩
  · exact (parse_parents_drops_unknown
      [⟨none, some "PX", none, none, some "Cat"⟩] (fun _ => none) "PX" rfl).1
  · exact (parse_parents_drops_unknown
      [⟨none, some "PX", none, none, some "Cat"⟩] (fun _ => none) "PX" rfl).2.2

theorem childrenL_mk (a b : String) (g : Option (List String)) (l : List Folder) :
    (Folder.mk a b g (if l.isEmpty then none else some l)).childrenL = l := by
  by_cases h : l.isEmpty
  · have hnil : l = [] := List.isEmpty_iff.mp h
    subst hnil
    rfl
  · rw [if_neg h]
    rfl

theorem mapOpt_names {α : Type} (f : α → Option Folder) (nm : Folder → String)
    (g : α → String) (hf : ∀ x y, f x = some y → nm y = g x) :
    ∀ (l : List α) (out : List Folder), mapOpt f l = some out →
      out.map nm = l.map g := by
  intro l
  induction l with
  | nil =>
      intro out h
      simp only [mapOpt] at h
      rw [← Option.some.inj h]
      rfl
  | cons a t ih =>
      intro out h
      simp only [mapOpt] at h
      cases hfa : f a with
      | none => rw [hfa] at h; exact nomatch h
      | some b =>
          rw [hfa] at h
          cases hrec : mapOpt f t with
          | none => rw [hrec] at h; exact nomatch h
          | some bs =>
              rw [hrec] at h
              rw [← Option.some.inj h, List.map_cons, List.map_cons,
                hf a b hfa, ih bs hrec]

theorem make_platform_folder_name (C : BuildCtx) :
    ∀ fuel pname f, make_platform_folder C fuel pname = some f →
      f.name = pname := by
  intro fuel
  cases fuel with
  | zero => intro p f h; exact nomatch h
  | succ fuel =>
      intro p f h
      simp only [make_platform_folder] at h
      cases hsub : mapOpt (fun q => make_platform_folder C fuel q)
          (C.iter (edgeGet C.maps.pcp p)) with
      | none => rw [hsub] at h; exact nomatch h
      | some subs =>
          rw [hsub] at h
          rw [← Option.some.inj h]
          rfl

theorem make_category_folder_name (C : BuildCtx) :
    ∀ fuel cname f, make_category_folder C fuel cname = some f →
      f.name = cname := by
  intro fuel
  cases fuel with
  | zero => intro c f h; exact nomatch h
  | succ fuel =>
      intro c f h
      simp only [make_category_folder] at h
      cases hsc : mapOpt (fun q => make_category_folder C fuel q)
          (pySorted (C.iter (edgeGet C.maps.ccc c))) with
      | none => rw [hsc] at h; exact nomatch h
      | some sc =>
          rw [hsc] at h
          cases hpf : mapOpt (fun q => make_platform_folder C fuel q)
              (pySorted (C.iter (edgeGet C.maps.ccp c))) with
          | none => rw [hpf] at h; exact nomatch h
          | some pf =>
              rw [hpf] at h
              rw [← Option.some.inj h]
              rfl

/-- Claim C7, amended: a category folder's children are its name-sorted
subcategory folders, then its name-sorted platform folders, then its
attached playlist folders in the iteration order of the stored playlist-id
set (not in encounter order, see the counterexample); a platform folder
carries its owned game ids (via the normalized-name lookup, sorted) and its
children are its attached playlist folders then its sub-platform folders. -/
theorem folder_children_structure (C : BuildCtx) (fuel : Nat) :
    (∀ cname f, make_category_folder C (fuel + 1) cname = some f →
      f.name = cname ∧ f.gameIds = none ∧
      ∃ sc pf,
        mapOpt (fun c => make_category_folder C fuel c)
            (pySorted (C.iter (edgeGet C.maps.ccc cname))) = some sc ∧
        mapOpt (fun p => make_platform_folder C fuel p)
            (pySorted (C.iter (edgeGet C.maps.ccp cname))) = some pf ∧
        f.childrenL = sc ++ pf ++
          (C.iter (edgeGet C.maps.ccpl cname)).filterMap
            (make_playlist_folder C.plMap) ∧
        sc.map Folder.name = pySorted (C.iter (edgeGet C.maps.ccc cname)) ∧
        pf.map Folder.name = pySorted (C.iter (edgeGet C.maps.ccp cname))) ∧
    (∀ pname f, make_platform_folder C (fuel + 1) pname = some f →
      f.name = pname ∧
      f.gameIds = (C.gbp (norm_key pname)).map pySorted ∧
      ∃ sp,
        mapOpt (fun p => make_platform_folder C fuel p)
            (C.iter (edgeGet C.maps.pcp pname)) = some sp ∧
        f.childrenL = (C.iter (edgeGet C.maps.pcpl pname)).filterMap
            (make_playlist_folder C.plMap) ++ sp ∧
        sp.map Folder.name = C.iter (edgeGet C.maps.pcp pname)) := by
  constructor
  · intro cname f hf
    simp only [make_category_folder] at hf
    cases hsc : mapOpt (fun q => make_category_folder C fuel q)
        (pySorted (C.iter (edgeGet C.maps.ccc cname))) with
    | none => rw [hsc] at hf; exact nomatch hf
    | some sc =>
        rw [hsc] at hf
        cases hpf : mapOpt (fun q => make_platform_folder C fuel q)
            (pySorted (C.iter (edgeGet C.maps.ccp cname))) with
        | none => rw [hpf] at hf; exact nomatch hf
        | some pf =>
            rw [hpf] at hf
            rw [← Option.some.inj hf]
            refine ⟨rfl, rfl, sc, pf, rfl, rfl, childrenL_mk _ _ _ _, ?_, ?_⟩
            · have := mapOpt_names (fun q => make_category_folder C fuel q)
                Folder.name id
                (fun x y h => make_category_folder_name C fuel x y h)
                (pySorted (C.iter (edgeGet C.maps.ccc cname))) sc hsc
              rwa [List.map_id] at this
            · have := mapOpt_names (fun q => make_platform_folder C fuel q)
                Folder.name id
                (fun x y h => make_platform_folder_name C fuel x y h)
                (pySorted (C.iter (edgeGet C.maps.ccp cname))) pf hpf
              rwa [List.map_id] at this
  · intro pname f hf
    simp only [make_platform_folder] at hf
    cases hsub : mapOpt (fun q => make_platform_folder C fuel q)
        (C.iter (edgeGet C.maps.pcp pname)) with
    | none => rw [hsub] at hf; exact nomatch hf
    | some subs =>
        rw [hsub] at hf
        rw [← Option.some.inj hf]
        refine ⟨rfl, ?_, subs, rfl, ?_, ?_⟩
        · cases C.gbp (norm_key pname) <;> rfl
        · exact childrenL_mk _ _ _ _
        · have := mapOpt_names (fun q => make_platform_folder C fuel q)
            Folder.name id
            (fun x y h => make_platform_folder_name C fuel x y h)
            (C.iter (edgeGet C.maps.pcp pname)) subs hsub
          rwa [List.map_id] at this

/-- Counterexample to the encounter-order part of claim C7: with the
legitimate set-iteration order that reverses insertion order, the playlist
children of "Root" come out as p2, p1 although the edges were recorded in
encounter order p1, p2. -/
theorem category_playlists_iter_order :
    (List.reverse ["p1", "p2"]).Perm ["p1", "p2"] ∧
      edgeGet ctxC7.maps.ccpl "Root" = ["p1", "p2"] ∧
      (make_category_folder ctxC7 1 "Root").map
          (fun f => f.childrenL.map Folder.id) = some ["i2", "i1"] ∧
      (["i2", "i1"] : List String) ≠ ["i1", "i2"] :=
  ⟨by decide, by decide, by decide, by decide⟩

theorem folder_children_structure_witness :
    make_category_folder ctxC7 1 "Root" =
      some (Folder.mk "u" "Root" none
        (some [Folder.mk "i2" "P2" (some []) none,
               Folder.mk "i1" "P1" (some []) none])) ∧
      (Folder.mk "u" "Root" none
        (some [Folder.mk "i2" "P2" (some []) none,
               Folder.mk "i1" "P1" (some []) none])).childrenL =
        [] ++ [] ++ (ctxC7.iter (edgeGet ctxC7.maps.ccpl "Root")).filterMap
          (make_playlist_folder ctxC7.plMap) := by
  have hf : make_category_folder ctxC7 1 "Root" =
      some (Folder.mk "u" "Root" none
        (some [Folder.mk "i2" "P2" (some []) none,
               Folder.mk "i1" "P1" (some []) none])) := rfl
  obtain ⟨-, -, sc, pf, hsc, hpf, hch, -, -⟩ :=
    (folder_children_structure ctxC7 0).1 "Root" _ hf
  have hscn : sc = [] := by
    have : mapOpt (fun c => make_category_folder ctxC7 0 c)
        (pySorted (ctxC7.iter (edgeGet ctxC7.maps.ccc "Root"))) = some [] := rfl
    rw [this] at hsc
    exact (Option.some.inj hsc).symm
  have hpfn : pf = [] := by
    have : mapOpt (fun p => make_platform_folder ctxC7 0 p)
        (pySorted (ctxC7.iter (edgeGet ctxC7.maps.ccp "Root"))) = some [] := rfl
    rw [this] at hpf
    exact (Option.some.inj hpf).symm
  subst hscn hpfn
  exact ⟨hf, hch⟩

theorem mapOpt_congr_some {α β : Type} (f g : α → Option β) :
    ∀ l : List α, (∀ x ∈ l, f x = g x ∧ (f x).isSome) →
      mapOpt f l = mapOpt g l ∧ (mapOpt f l).isSome := by
  intro l
  induction l with
  | nil => intro _; exact ⟨rfl, by trivial⟩
  | cons a t ih =>
      intro h
      obtain ⟨hfa, hsa⟩ := h a (List.mem_cons_self a t)
      obtain ⟨b, hb⟩ := Option.isSome_iff_exists.mp hsa
      obtain ⟨ht, hst⟩ := ih (fun x hx => h x (List.mem_cons_of_mem a hx))
      obtain ⟨bs, hbs⟩ := Option.isSome_iff_exists.mp hst
      simp only [mapOpt, hb, hbs, ← hfa, ← ht]
      constructor <;> trivial

theorem mapOpt_none_of_mem {α β : Type} (f : α → Option β) :
    ∀ (l : List α) (x : α), x ∈ l → f x = none → mapOpt f l = none := by
  intro l
  induction l with
  | nil => intro x hx; cases hx
  | cons a t ih =>
      intro x hx hfx
      rcases List.mem_cons.mp hx with rfl | hx
      · simp only [mapOpt, hfx]
      · cases hfa : f a with
        | none => simp only [mapOpt, hfa]
        | some b => simp only [mapOpt, hfa, ih x hx hfx]

theorem make_platform_folder_stable (C : BuildCtx) (root : String)
    (rankP : String → Nat)
    (hiter : ∀ l, (C.iter l).Perm l)
    (hP : ∀ p, ReachP C root p → ∀ p' ∈ edgeGet C.maps.pcp p,
      rankP p' < rankP p) :
    ∀ r p, ReachP C root p → rankP p ≤ r → ∀ n m, rankP p < n → rankP p < m →
      make_platform_folder C n p = make_platform_folder C m p ∧
        (make_platform_folder C n p).isSome := by
  intro r
  induction r using Nat.strong_induction_on with
  | _ r ih =>
  intro p hreach hr n m hn hm
  obtain ⟨n2, rfl⟩ : ∃ n2, n = n2 + 1 := ⟨n - 1, by omega⟩
  obtain ⟨m2, rfl⟩ : ∃ m2, m = m2 + 1 := ⟨m - 1, by omega⟩
  have hcong := mapOpt_congr_some
    (fun q => make_platform_folder C n2 q) (fun q => make_platform_folder C m2 q)
    (C.iter (edgeGet C.maps.pcp p))
    (fun x hx => by
      have hx2 : x ∈ edgeGet C.maps.pcp p := (hiter _).mem_iff.mp hx
      have hrx : rankP x < rankP p := hP p hreach x hx2
      exact ih (rankP x) (by omega) x (ReachP.sub hreach hx2) le_rfl n2 m2
        (by omega) (by omega))
  obtain ⟨heq, hsome⟩ := hcong
  obtain ⟨subs, hsubs⟩ := Option.isSome_iff_exists.mp hsome
  simp only [make_platform_folder]
  rw [hsubs, ← heq, hsubs]
  exact ⟨rfl, rfl⟩

theorem make_category_folder_stable (C : BuildCtx) (root : String)
    (rankC rankP : String → Nat) (B : Nat)
    (hiter : ∀ l, (C.iter l).Perm l)
    (hC : ∀ c, ReachC C root c → ∀ c' ∈ edgeGet C.maps.ccc c,
      rankC c' < rankC c)
    (hP : ∀ p, ReachP C root p → ∀ p' ∈ edgeGet C.maps.pcp p,
      rankP p' < rankP p)
    (hB : ∀ p, ReachP C root p → rankP p < B) :
    ∀ r c, ReachC C root c → rankC c ≤ r →
      ∀ n m, rankC c + B < n → rankC c + B < m →
      make_category_folder C n c = make_category_folder C m c ∧
        (make_category_folder C n c).isSome := by
  intro r
  induction r using Nat.strong_induction_on with
  | _ r ih =>
  intro c hreach hr n m hn hm
  obtain ⟨n2, rfl⟩ : ∃ n2, n = n2 + 1 := ⟨n - 1, by omega⟩
  obtain ⟨m2, rfl⟩ : ∃ m2, m = m2 + 1 := ⟨m - 1, by omega⟩
  have hsubPerm : ∀ x, x ∈ pySorted (C.iter (edgeGet C.maps.ccc c)) →
      x ∈ edgeGet C.maps.ccc c := by
    intro x hx
    exact (hiter _).mem_iff.mp ((List.perm_insertionSort pyStrLe _).mem_iff.mp hx)
  have hplatPerm : ∀ x, x ∈ pySorted (C.iter (edgeGet C.maps.ccp c)) →
      x ∈ edgeGet C.maps.ccp c := by
    intro x hx
    exact (hiter _).mem_iff.mp ((List.perm_insertionSort pyStrLe _).mem_iff.mp hx)
  have hcongC := mapOpt_congr_some
    (fun q => make_category_folder C n2 q) (fun q => make_category_folder C m2 q)
    (pySorted (C.iter (edgeGet C.maps.ccc c)))
    (fun x hx => by
      have hx2 := hsubPerm x hx
      have hrx : rankC x < rankC c := hC c hreach x hx2
      exact ih (rankC x) (by omega) x (ReachC.child hreach hx2) le_rfl n2 m2
        (by omega) (by omega))
  have hcongP := mapOpt_congr_some
    (fun q => make_platform_folder C n2 q) (fun q => make_platform_folder C m2 q)
    (pySorted (C.iter (edgeGet C.maps.ccp c)))
    (fun x hx => by
      have hx2 := hplatPerm x hx
      have hrx : ReachP C root x := ReachP.fromCat hreach hx2
      have hBx := hB x hrx
      exact make_platform_folder_stable C root rankP hiter hP (rankP x) x hrx
        le_rfl n2 m2 (by omega) (by omega))
  obtain ⟨heqC, hsomeC⟩ := hcongC
  obtain ⟨scs, hscs⟩ := Option.isSome_iff_exists.mp hsomeC
  obtain ⟨heqP, hsomeP⟩ := hcongP
  obtain ⟨pfs, hpfs⟩ := Option.isSome_iff_exists.mp hsomeP
  simp only [make_category_folder]
  rw [hscs, ← heqC, hscs, hpfs, ← heqP, hpfs]
  exact ⟨rfl, rfl⟩

/-- Claim C8: under the acyclicity precondition on the subcategory and
sub-platform relations reachable from the root (phrased as descending rank
functions), the fuel-indexed resolver stabilizes: beyond an explicit fuel
bound it returns exactly one root folder, the same one for every such
fuel.  And without that precondition nothing protects the recursion: on a
self-loop the builder exhausts any amount of fuel (the source would not
terminate). -/
theorem build_folder_tree_terminates :
    (∀ (C : BuildCtx) (root : String) (rankC rankP : String → Nat) (B : Nat),
      (∀ l, (C.iter l).Perm l) →
      (∀ c, ReachC C root c → ∀ c' ∈ edgeGet C.maps.ccc c, rankC c' < rankC c) →
      (∀ p, ReachP C root p → ∀ p' ∈ edgeGet C.maps.pcp p, rankP p' < rankP p) →
      (∀ p, ReachP C root p → rankP p < B) →
      ∃ f : Folder, ∀ fuel, rankC root + B < fuel →
        build_folder_tree_from_parents C root fuel = some [f]) ∧
    (∀ (C : BuildCtx) (c : String), (∀ l, (C.iter l).Perm l) →
      c ∈ edgeGet C.maps.ccc c →
      ∀ fuel, make_category_folder C fuel c = none) := by
  constructor
  · intro C root rankC rankP B hiter hC hP hB
    have hstable := make_category_folder_stable C root rankC rankP B hiter hC hP hB
    have hroot := hstable (rankC root) root ReachC.base le_rfl
    obtain ⟨f, hf⟩ := Option.isSome_iff_exists.mp
      (hroot (rankC root + B + 1) (rankC root + B + 1) (by omega) (by omega)).2
    refine ⟨f, fun fuel hfuel => ?_⟩
    have := (hroot fuel (rankC root + B + 1) hfuel (by omega)).1
    rw [build_folder_tree_from_parents, this, hf]
    rfl
  · intro C c hiter hloop fuel
    induction fuel with
    | zero => rfl
    | succ fuel ih =>
        have hmem : c ∈ pySorted (C.iter (edgeGet C.maps.ccc c)) :=
          ((List.perm_insertionSort pyStrLe _).mem_iff).mpr
            (((hiter _).mem_iff).mpr hloop)
        have hnone := mapOpt_none_of_mem
          (fun q => make_category_folder C fuel q) _ c hmem ih
        simp only [make_category_folder, hnone]

theorem build_folder_tree_terminates_witness :
    ∃ f : Folder, ∀ fuel,
      (fun c => if c = "Computers" then 1 else 0) "Computers" + 1 < fuel →
      build_folder_tree_from_parents ctxC8 "Computers" fuel = some [f] := by
  have hiter : ∀ l : List String, (ctxC8.iter l).Perm l := fun l => List.Perm.refl l
  have hedge : ∀ c : String, edgeGet ctxC8.maps.ccc c =
      if c = "Computers" then ["Retro"] else [] := by
    intro c
    by_cases hc : c = "Computers"
    · subst hc
      rfl
    · rw [if_neg hc]
      have hb : ((("Computers", ["Retro"]).1 == c) : Bool) = false := by
        simp only [beq_eq_false_iff_ne, ne_eq]
        exact fun h => hc h.symm
      simp only [ctxC8, edgeGet, List.find?_cons, hb, List.find?_nil]
  have hnoP : ∀ p, ReachP ctxC8 "Computers" p → False := by
    intro p hp
    induction hp with
    | fromCat hc hmem => exact absurd hmem (by intro h; exact nomatch h)
    | sub hp hmem ih => exact ih
  exact (build_folder_tree_terminates.1 ctxC8 "Computers"
    (fun c => if c = "Computers" then 1 else 0) (fun _ => 0) 1 hiter
    (fun c hc c' hc' => by
      rw [hedge c] at hc'
      by_cases hcC : c = "Computers"
      · subst hcC
        rw [if_pos rfl] at hc'
        rcases List.mem_singleton.mp hc' with rfl
        simp
      · rw [if_neg hcC] at hc'
        cases hc')
    (fun p hp => absurd hp (fun h => hnoP p h))
    (fun p hp => absurd hp (fun h => hnoP p h)))

theorem mapOpt_mem {α β : Type} (f : α → Option β) :
    ∀ (l : List α) (out : List β), mapOpt f l = some out →
      ∀ y ∈ out, ∃ x ∈ l, f x = some y := by
  intro l
  induction l with
  | nil =>
      intro out h y hy
      simp only [mapOpt] at h
      rw [← Option.some.inj h] at hy
      cases hy
  | cons a t ih =>
      intro out h y hy
      simp only [mapOpt] at h
      cases hfa : f a with
      | none => rw [hfa] at h; exact nomatch h
      | some b =>
          rw [hfa] at h
          cases hrec : mapOpt f t with
          | none => rw [hrec] at h; exact nomatch h
          | some bs =>
              rw [hrec] at h
              rw [← Option.some.inj h] at hy
              rcases List.mem_cons.mp hy with rfl | hy
              · exact ⟨a, List.mem_cons_self a t, hfa⟩
              · obtain ⟨x, hx, hfx⟩ := ih bs hrec y hy
                exact ⟨x, List.mem_cons_of_mem a hx, hfx⟩

theorem pySorted_pairwise (l : List String) :
    List.Pairwise pyStrLe (pySorted l) :=
  List.sorted_insertionSort pyStrLe l

theorem make_playlist_folder_gidsSorted (plMap : String → Option PlaylistOut)
    (pid : String) (f : Folder) (h : make_playlist_folder plMap pid = some f) :
    f.gidsSorted := by
  rw [make_playlist_folder] at h
  cases hpl : plMap pid with
  | none => rw [hpl] at h; exact nomatch h
  | some pl =>
      rw [hpl] at h
      rw [← Option.some.inj h, Folder.gidsSorted]
      constructor
      · intro l hl
        rw [← Option.some.inj hl]
        exact pySorted_pairwise pl.gameIds
      · intro g hg
        exact absurd hg (by simp [Folder.childrenL, Folder.children])

theorem make_platform_folder_gidsSorted (C : BuildCtx) :
    ∀ fuel p f, make_platform_folder C fuel p = some f → f.gidsSorted := by
  intro fuel
  induction fuel with
  | zero => intro p f h; exact nomatch h
  | succ fuel ih =>
      intro p f h
      simp only [make_platform_folder] at h
      cases hsub : mapOpt (fun q => make_platform_folder C fuel q)
          (C.iter (edgeGet C.maps.pcp p)) with
      | none => rw [hsub] at h; exact nomatch h
      | some subs =>
          rw [hsub] at h
          rw [← Option.some.inj h, Folder.gidsSorted]
          constructor
          · intro l hl
            cases hgbp : C.gbp (norm_key p) with
            | none => rw [Folder.gameIds, hgbp] at hl; exact nomatch hl
            | some ids =>
                rw [Folder.gameIds, hgbp] at hl
                rw [← Option.some.inj hl]
                exact pySorted_pairwise ids
          · intro g hg
            rw [childrenL_mk] at hg
            rcases List.mem_append.mp hg with hg | hg
            · obtain ⟨pid, -, hpid⟩ := List.mem_filterMap.mp hg
              exact make_playlist_folder_gidsSorted C.plMap pid g hpid
            · obtain ⟨x, -, hx⟩ := mapOpt_mem _ _ subs hsub g hg
              exact ih x g hx

theorem make_category_folder_gidsSorted (C : BuildCtx) :
    ∀ fuel c f, make_category_folder C fuel c = some f → f.gidsSorted := by
  intro fuel
  induction fuel with
  | zero => intro c f h; exact nomatch h
  | succ fuel ih =>
      intro c f h
      simp only [make_category_folder] at h
      cases hsc : mapOpt (fun q => make_category_folder C fuel q)
          (pySorted (C.iter (edgeGet C.maps.ccc c))) with
      | none => rw [hsc] at h; exact nomatch h
      | some sc =>
          rw [hsc] at h
          cases hpf : mapOpt (fun q => make_platform_folder C fuel q)
              (pySorted (C.iter (edgeGet C.maps.ccp c))) with
          | none => rw [hpf] at h; exact nomatch h
          | some pf =>
              rw [hpf] at h
              rw [← Option.some.inj h, Folder.gidsSorted]
              constructor
              · intro l hl
                exact nomatch hl
              · intro g hg
                rw [childrenL_mk] at hg
                rcases List.mem_append.mp hg with hg | hg
                · rcases List.mem_append.mp hg with hg | hg
                  · obtain ⟨x, -, hx⟩ := mapOpt_mem _ _ sc hsc g hg
                    exact ih x g hx
                  · obtain ⟨x, -, hx⟩ := mapOpt_mem _ _ pf hpf g hg
                    exact make_platform_folder_gidsSorted C fuel x g hx
                · obtain ⟨pid, -, hpid⟩ := List.mem_filterMap.mp hg
                  exact make_playlist_folder_gidsSorted C.plMap pid g hpid

theorem processPlaylistFile_gameIds (games : String → Option String)
    (u : String) (f : PlaylistFile) (p : PlaylistOut)
    (h : processPlaylistFile games u f = some p) :
    p.gameIds = f.members.filterMap (resolveMember games) := by
  rw [processPlaylistFile] at h
  split at h
  · exact nomatch h
  · cases hid : playlistLbId f with
    | none => rw [hid] at h; exact nomatch h
    | some lbid =>
        rw [hid] at h
        rw [← Option.some.inj h]

/-- Claim C10: every `GameIds` list inside the built folder tree is sorted
ascending (platform folders sort their owned ids, playlist folders sort the
playlist's ids), while the flat playlist output keeps each playlist's
member resolution in descriptor encounter order — so a playlist folder's
member order can differ from the flat output, as the concrete instance
shows. -/
theorem folder_gameIds_sorted :
    (∀ (C : BuildCtx) (root : String) (fuel : Nat) (result : List Folder),
      build_folder_tree_from_parents C root fuel = some result →
      ∀ f ∈ result, f.gidsSorted) ∧
    (∀ (files : List PlaylistFile) (games : String → Option String)
        (uuids : Nat → String) (p : PlaylistOut),
      p ∈ (parse_playlists files games uuids).1 →
      ∃ f ∈ files, p.gameIds = f.members.filterMap (resolveMember games)) ∧
    (make_playlist_folder plMapC10 "p" =
        some (Folder.mk "i" "P" (some ["a", "b"]) none) ∧
      plMapC10 "p" = some ⟨"i", "P", none, ["b", "a"], "p"⟩ ∧
      (["a", "b"] : List String) ≠ ["b", "a"]) := by
  refine ⟨?_, ?_, rfl, rfl, by decide⟩
  · intro C root fuel result h f hf
    rw [build_folder_tree_from_parents] at h
    cases hc : make_category_folder C fuel root with
    | none => rw [hc] at h; exact nomatch h
    | some g =>
        rw [hc] at h
        simp only [Option.map] at h
        rw [← Option.some.inj h] at hf
        rcases List.mem_singleton.mp hf with rfl
        exact make_category_folder_gidsSorted C fuel root f hc
  · intro files games uuids p hp
    have key : ∀ (fs : List PlaylistFile) (n : Nat),
        p ∈ (parse_playlistsAux games uuids fs n).1 →
        ∃ f ∈ fs, p.gameIds = f.members.filterMap (resolveMember games) := by
      intro fs
      induction fs with
      | nil => intro n hmem; cases hmem
      | cons g rest ih =>
          intro n hmem
          cases hg : processPlaylistFile games (uuids n) g with
          | none =>
              simp only [parse_playlistsAux, hg] at hmem
              obtain ⟨f2, hf2, he⟩ := ih n hmem
              exact ⟨f2, List.mem_cons_of_mem g hf2, he⟩
          | some q =>
              simp only [parse_playlistsAux, hg] at hmem
              rcases List.mem_cons.mp hmem with rfl | hmem
              · exact ⟨g, List.mem_cons_self g rest,
                  processPlaylistFile_gameIds games (uuids n) g p hg⟩
              · obtain ⟨f2, hf2, he⟩ := ih (n + 1) hmem
                exact ⟨f2, List.mem_cons_of_mem g hf2, he⟩
    exact key files 0 hp

theorem folder_gameIds_sorted_witness :
    build_folder_tree_from_parents ctxC7 "Root" 1 =
      some [Folder.mk "u" "Root" none
        (some [Folder.mk "i2" "P2" (some []) none,
               Folder.mk "i1" "P1" (some []) none])] ∧
      (Folder.mk "u" "Root" none
        (some [Folder.mk "i2" "P2" (some []) none,
               Folder.mk "i1" "P1" (some []) none])).gidsSorted := by
  have hb : build_folder_tree_from_parents ctxC7 "Root" 1 =
      some [Folder.mk "u" "Root" none
        (some [Folder.mk "i2" "P2" (some []) none,
               Folder.mk "i1" "P1" (some []) none])] := rfl
  refine ⟨hb, ?_⟩
  exact folder_gameIds_sorted.1 ctxC7 "Root" 1 _ hb _ (List.mem_singleton.mpr rfl)

end LB2P













